import Mathlib

/-!
Verification of the tic-tac-toe engine, minimax search and self-play harness
of the `relearn` repository, as a shallow embedding in Lean 4.

The board state, rules engine (`State.act`, `Game.winner`, `Game.status`),
the two minimax variants (the one-shot searcher of `player.rs` and the
memoizing learner of `players/minmax.rs`) and the worker arithmetic of
`commands/play.rs` are translated from the Rust source.  Machine integers
(`u8`, `u16`, `i64`) never overflow in the translated code paths, so they
are modelled by `Nat`/`Int`.  Recursion that Rust performs on the physically
finite game tree is modelled with an explicit fuel argument; every theorem
that runs the search supplies enough fuel for the recursion to reach a true
terminal state, mirroring the real executions.
-/

namespace Relearn

/-- Mirrors `enum Player { X, O }` from `src/game.rs`. -/
inductive Player : Type
  | X
  | O
deriving DecidableEq, Repr

/-- Mirrors `Player::next_player` from `src/game.rs`. -/
def Player.next : Player → Player
  | Player.X => Player.O
  | Player.O => Player.X

/-- A board cell: `Option<Player>` in the Rust source. -/
abbrev Cell := Option Player

/-- Mirrors `struct State { fields: [Option<Player>; 9], available_fields: Vec<u8> }`.
The Rust array type fixes the length of `fields` at 9; theorems that need
this carry the hypothesis `s.fields.length = 9` (or the `WfState` invariant). -/
structure State : Type where
  fields : List Cell
  available_fields : List Nat
deriving DecidableEq, Repr

/-- Mirrors `enum Status { Finished(Option<Player>), OnGoing }`. -/
inductive Status : Type
  | Finished (winner : Option Player)
  | OnGoing
deriving DecidableEq, Repr

/-- Mirrors `enum MoveError { NonEmptyField, OutOfBound }`. -/
inductive MoveError : Type
  | NonEmptyField
  | OutOfBound
deriving DecidableEq, Repr

/-- Mirrors `State::new` from `src/game.rs`. -/
def State.new : State :=
  State.mk (List.replicate 9 none) [0, 1, 2, 3, 4, 5, 6, 7, 8]

/-- Mirrors `Vec::swap_remove(index)`: the element at `index` is replaced by
the last element and the last element is popped.  In the source it is only
called on an index returned by a successful `position` search, hence on a
nonempty vector and an in-range index. -/
def swapRemove (l : List Nat) (i : Nat) : List Nat :=
  match l.getLast? with
  | none => l
  | some last => (l.set i last).dropLast

/-- Mirrors `Iterator::position`: index of the first element satisfying the
predicate, if any. -/
def listPosition (p : Nat → Bool) : List Nat → Option Nat
  | [] => none
  | a :: t => if p a then some 0 else (listPosition p t).map (· + 1)

/-- Mirrors `State::act` from `src/game.rs` (lines 251-273).  The Rust method
mutates `self` and returns `Result<(), MoveError>`; here the pair holds the
returned `Result` together with the state after the call.  All mutations in
the source occur after both early returns, so on an error the state component
is the untouched input state, exactly as in the source. -/
def State.act (s : State) (player : Player) (position : Nat) : Except MoveError Unit × State :=
  if ¬ position < 9 then
    (Except.error MoveError.OutOfBound, s)
  else if (s.fields.getD position none).isSome then
    (Except.error MoveError.NonEmptyField, s)
  else
    let avail :=
      match listPosition (fun value => value == position) s.available_fields with
      | some index => swapRemove s.available_fields index
      | none => s.available_fields
    (Except.ok (), State.mk (s.fields.set position (some player)) avail)

/-- One three-in-a-row test of the pattern match in `Game::winner`: cells
`a`, `b`, `c` all hold the mark of `p`. -/
def lineIs (f : List Cell) (p : Player) (a b c : Nat) : Bool :=
  f.getD a none == some p && f.getD b none == some p && f.getD c none == some p

/-- The eight winning-line patterns of `Game::winner` for one player:
three rows, three columns, two diagonals. -/
def hasLine (f : List Cell) (p : Player) : Bool :=
  lineIs f p 0 1 2 || lineIs f p 3 4 5 || lineIs f p 6 7 8 ||
  lineIs f p 0 3 6 || lineIs f p 1 4 7 || lineIs f p 2 5 8 ||
  lineIs f p 0 4 8 || lineIs f p 2 4 6

/-- Mirrors `Game::winner` from `src/game.rs` (lines 131-220): when more than
4 moves are still available the line scan is skipped; otherwise the `match`
tries all X patterns first, then all O patterns, then falls through to `None`. -/
def Game.winner (s : State) : Option Player :=
  if 4 < s.available_fields.length then none
  else if hasLine s.fields Player.X then some Player.X
  else if hasLine s.fields Player.O then some Player.O
  else none

/-- Mirrors `Game::status` from `src/game.rs` (lines 107-117). -/
def Game.status (s : State) : Status :=
  match Game.winner s with
  | some w => Status.Finished (some w)
  | none =>
    if s.available_fields.isEmpty then Status.Finished none
    else Status.OnGoing

/-- Mirrors `MinMaxPlayer::utility` (identical in both variants). -/
def utility (maybe_winner : Option Player) (player : Player) : Int :=
  match maybe_winner with
  | some winner => if winner = player then 1 else -1
  | none => 0

/-- The policy table `knowledge: HashMap<State, u8>` of `players/minmax.rs`,
modelled as an association list.  `State` equality (and hashing) in the source
is defined on the cell contents only, so the key is the `fields` list. -/
abbrev Kn := List (List Cell × Nat)

/-- Mirrors `HashMap::insert`: a later binding for the same key shadows an
earlier one, which for an association list consulted front-to-back is a cons. -/
def knInsert (kn : Kn) (key : List Cell) (val : Nat) : Kn :=
  (key, val) :: kn

/-- Mirrors `HashMap::get` on the knowledge table (front-to-back lookup, so
the most recent insertion for a key wins, as in the hash map). -/
def knFind : Kn → List Cell → Option Nat
  | [], _ => none
  | (k, v) :: rest, key => if k = key then some v else knFind rest key

/-- The `for action in available_moves` loop shared by the four search
procedures.  `eval` is the recursive call on the child state (threading the
accumulator `acc`: the knowledge table in `players/minmax.rs`, `Unit` in
`player.rs`), `better` is the strict comparison (`>` in maximize, `<` in
minimize), and when `useStop` is set the loop body ends with the
`if highest_value == stop { break }` early exit that only `player.rs` has.
The state component of `State.act` is used unconditionally, mirroring the
`unwrap`/`unwrap_unchecked` on a move drawn from `available_moves`. -/
def searchLoop {σ : Type} (eval : σ → State → Int × σ) (better : Int → Int → Bool)
    (useStop : Bool) (stop : Int) (s : State) (mv : Player) :
    List Nat → σ → Int → Option Nat → Int × Option Nat × σ
  | [], acc, hv, bm => (hv, bm, acc)
  | a :: rest, acc, hv, bm =>
    let r := eval acc (s.act mv a).2
    let hv' := if better r.1 hv then r.1 else hv
    let bm' := if better r.1 hv then some a else bm
    if useStop && (hv' == stop) then (hv', bm', r.2)
    else searchLoop eval better useStop stop s mv rest r.2 hv' bm'

/-- Mirrors `MinMaxPlayer::maximize`/`minimize` of `src/players/minmax.rs`
(lines 66-126), the learning variant: the two mutually recursive procedures
are combined into one function selected by `isMax`, recursing structurally on
an explicit fuel (the Rust recursion terminates because each move shrinks the
available list; every theorem runs it with enough fuel to reach the terminal
states).  There is no early exit, and after the move loop the procedure
inserts `state -> best_move` into the knowledge table; the
`unwrap_unchecked` of `best_move` is modelled by `Option.getD` whose default
is proved unreachable on non-terminal states. -/
def minimaxL : Nat → Bool → Kn → State → Player → Int × Option Nat × Kn
  | 0 => fun _ kn _ _ => (0, none, kn)
  | fuel + 1 => fun isMax kn s p =>
    match Game.status s with
    | Status.Finished w => (utility w p, none, kn)
    | Status.OnGoing =>
      let r :=
        match isMax with
        | true =>
          searchLoop (fun kn' s' => let m := minimaxL fuel false kn' s' p; (m.1, m.2.2))
            (fun v h => decide (h < v)) false 0 s p s.available_fields kn (-10) none
        | false =>
          searchLoop (fun kn' s' => let m := minimaxL fuel true kn' s' p; (m.1, m.2.2))
            (fun v h => decide (v < h)) false 0 s p.next s.available_fields kn 10 none
      (r.1, r.2.1, knInsert r.2.2 s.fields (r.2.1.getD 0))

/-- Mirrors `MinMaxPlayer::maximize`/`minimize` of `src/player.rs`
(lines 60-126), the one-shot variant: same structure as the learning variant
but with no knowledge table and with the `if highest_value == 1 { break }`
(resp. `== -1`) early exit in the move loop. -/
def minimaxOS : Nat → Bool → State → Player → Int × Option Nat
  | 0 => fun _ _ _ => (0, none)
  | fuel + 1 => fun isMax s p =>
    match Game.status s with
    | Status.Finished w => (utility w p, none)
    | Status.OnGoing =>
      let r :=
        match isMax with
        | true =>
          searchLoop (fun _ s' => ((minimaxOS fuel false s' p).1, ()))
            (fun v h => decide (h < v)) true 1 s p s.available_fields () (-10) none
        | false =>
          searchLoop (fun _ s' => ((minimaxOS fuel true s' p).1, ()))
            (fun v h => decide (v < h)) true (-1) s p.next s.available_fields () 10 none
      (r.1, r.2.1)

namespace Learning

/-- `MinMaxPlayer::maximize` of `src/players/minmax.rs`. -/
def maximize (fuel : Nat) (kn : Kn) (s : State) (p : Player) : Int × Option Nat × Kn :=
  minimaxL fuel true kn s p

/-- `MinMaxPlayer::minimize` of `src/players/minmax.rs`. -/
def minimize (fuel : Nat) (kn : Kn) (s : State) (p : Player) : Int × Option Nat × Kn :=
  minimaxL fuel false kn s p

/-- Mirrors `MinMaxPlayer::learn` of `src/players/minmax.rs` (lines 37-42):
one `maximize` call from the empty initial state with self = `X`, starting
from the empty knowledge table; the result is the filled policy table.
Fuel 10 strictly exceeds the 9 possible plies, so the recursion always
reaches a true terminal state before the fuel runs out. -/
def learnKnowledge : Kn :=
  (maximize 10 [] State.new Player.X).2.2

end Learning

namespace OneShot

/-- `MinMaxPlayer::maximize` of `src/player.rs`. -/
def maximize (fuel : Nat) (s : State) (p : Player) : Int × Option Nat :=
  minimaxOS fuel true s p

/-- `MinMaxPlayer::minimize` of `src/player.rs`. -/
def minimize (fuel : Nat) (s : State) (p : Player) : Int × Option Nat :=
  minimaxOS fuel false s p

end OneShot

/-- Maximum of a list of integers (0 for the empty list; every use is on a
nonempty list). -/
def listMax : List Int → Int
  | [] => 0
  | x :: xs => xs.foldl max x

/-- Minimum of a list of integers (0 for the empty list; every use is on a
nonempty list). -/
def listMin : List Int → Int
  | [] => 0
  | x :: xs => xs.foldl min x

/-- Modelled from the spec (section 4.2): the game-theoretic value of a
position for the designated self player `p`, under subsequent optimal play
down to a true terminal leaf scored `+1` for a self win, `-1` for an opponent
win and `0` for a draw.  `isMax = true` when self is to move, `false` for the
opponent.  This is the specification-side yardstick the search procedures are
compared against. -/
def optimalValue : Nat → Bool → State → Player → Int
  | 0 => fun _ _ _ => 0
  | fuel + 1 => fun isMax s p =>
    match Game.status s with
    | Status.Finished w => utility w p
    | Status.OnGoing =>
      match isMax with
      | true =>
        listMax (s.available_fields.map (fun a => optimalValue fuel false (s.act p a).2 p))
      | false =>
        listMin (s.available_fields.map (fun a => optimalValue fuel true (s.act p.next a).2 p))

/-- Well-formedness of a `State`, the data-model invariant of section 3 of
the spec: nine cells, and the available-move list holds exactly the indices
of the empty cells, without duplicates. -/
def WfState (s : State) : Prop :=
  s.fields.length = 9 ∧ s.available_fields.Nodup ∧
  (∀ i ∈ s.available_fields, i < 9) ∧
  (∀ i, i < 9 → (s.fields.getD i none = none ↔ i ∈ s.available_fields))

instance (s : State) : Decidable (WfState s) :=
  decidable_of_iff
    (s.fields.length = 9 ∧ s.available_fields.Nodup ∧
      (∀ i ∈ s.available_fields, i < 9) ∧
      (∀ i ∈ List.range 9, (s.fields.getD i none = none ↔ i ∈ s.available_fields)))
    (by unfold WfState; simp [List.mem_range])

/-- Number of occupied cells of a board. -/
def countOccupied (f : List Cell) : Nat :=
  f.countP (fun c => c.isSome)

/-- Number of empty cells of a board. -/
def countEmpty (f : List Cell) : Nat :=
  f.countP (fun c => c.isNone)

/-- One legal-move edge of the reachable-state graph: some player succeeds
in applying some move. -/
def StateStep (s t : State) : Prop :=
  ∃ p a, (s.act p a).1 = Except.ok () ∧ t = (s.act p a).2

/-- States reachable from the initial empty state by any sequence of
successful `act` calls (any players, any order). -/
inductive ReachableState : State → Prop
  | init : ReachableState State.new
  | step {s : State} (p : Player) (a : Nat) : ReachableState s →
      (s.act p a).1 = Except.ok () → ReachableState ((s.act p a).2)

/-- A chain of `n` consecutive legal-move edges. -/
inductive StepChain : Nat → State → State → Prop
  | refl (s : State) : StepChain 0 s s
  | step {s t u : State} {n : Nat} : StateStep s t → StepChain n t u → StepChain (n + 1) s u

/-- States (with the player to move) reachable from a given state by legal
alternating play: `ReachFrom s q t r` holds when, starting from `s` with `q`
to move, a sequence of moves drawn from the available lists of ongoing
states leads to `t` with `r` to move. -/
inductive ReachFrom : State → Player → State → Player → Prop
  | refl (s : State) (q : Player) : ReachFrom s q s q
  | head {s : State} {q : Player} {t : State} {r : Player} (a : Nat) :
      Game.status s = Status.OnGoing → a ∈ s.available_fields →
      ReachFrom ((s.act q a).2) q.next t r → ReachFrom s q t r

/-- Result of one iteration of the `loop` in `Game::play`
(`src/game.rs`, lines 79-105): either the game goes on with a mover and a
board, or it ends with `break winner`. -/
inductive PlayOutcome : Type
  | continueWith (current : Player) (board : State)
  | done (winner : Option Player)
deriving DecidableEq, Repr

/-- One iteration of the `loop` in `Game::play`.  `pol` dispatches to
`player_1.play` for `X` and `player_2.play` for `O`.  The `mem::replace`
makes `player` the previous `current_player` while `current_player` becomes
its successor; on a move error the source advances `current_player` once more
("the same player tries again") and continues; on success it checks the
status and either breaks with the winner or continues. -/
def playStep (pol : Player → State → Nat) (current_player : Player) (board : State) :
    PlayOutcome :=
  let next_player := current_player.next
  let player := current_player
  let action := pol player board
  let r := board.act player action
  match r.1 with
  | Except.error _ => PlayOutcome.continueWith next_player.next r.2
  | Except.ok _ =>
    match Game.status r.2 with
    | Status.Finished w => PlayOutcome.done w
    | Status.OnGoing => PlayOutcome.continueWith next_player r.2

/-- Mirrors `struct GamesResult` of `src/commands/play.rs`. -/
structure GamesResult : Type where
  victories : Nat
  draws : Nat
  losses : Nat
deriving DecidableEq, Repr

/-- Mirrors `impl AddAssign for GamesResult`. -/
def GamesResult.add (g h : GamesResult) : GamesResult :=
  GamesResult.mk (g.victories + h.victories) (g.draws + h.draws) (g.losses + h.losses)

/-- The game count reported by `Display for GamesResult`:
`victories + draws + losses`. -/
def GamesResult.total (g : GamesResult) : Nat :=
  g.victories + g.draws + g.losses

/-- The `match result` classification in `play_games`: which counter a single
game's outcome increments, given which policy moved first. -/
def tallyGame (first_player : Bool) (result : Option Player) (g : GamesResult) : GamesResult :=
  match result with
  | some Player.X =>
    if first_player then GamesResult.mk (g.victories + 1) g.draws g.losses
    else GamesResult.mk g.victories g.draws (g.losses + 1)
  | some Player.O =>
    if !first_player then GamesResult.mk (g.victories + 1) g.draws g.losses
    else GamesResult.mk g.victories g.draws (g.losses + 1)
  | none => GamesResult.mk g.victories (g.draws + 1) g.losses

/-- The `for _ in 0..n` loop of `play_games`: `k` games remain, the
first-mover flag is toggled at the top of each iteration, and game outcomes
are supplied by the oracle `res` (each call of `Game::play` between two
dynamic policies, possibly involving randomness and interaction, is an
external event; only the returned `Option<Player>` matters here). -/
def playGamesGo (res : Nat → Option Player) : Nat → Bool → GamesResult → GamesResult
  | 0, _, g => g
  | k + 1, fp, g => playGamesGo res k (!fp) (tallyGame (!fp) (res k) g)

/-- Mirrors `play_games` of `src/commands/play.rs` (lines 55-87): `n` games,
alternating who moves first, tallied into one `GamesResult`. -/
def play_games (res : Nat → Option Player) (n : Nat) : GamesResult :=
  playGamesGo res n false (GamesResult.mk 0 0 0)

/-- Mirrors `play` of `src/commands/play.rs` (lines 14-53): the worker count
is `min(available hardware parallelism P, game_count N)`; each of the `W`
spawned workers runs `play_games` for `N / W` games (integer division); the
joined results are summed.  `res w` is the outcome oracle of worker `w`. -/
def playBatch (res : Nat → Nat → Option Player) (P N : Nat) : GamesResult :=
  let W := min P N
  (List.range W).foldl (fun acc w => acc.add (play_games (res w) (N / W)))
    (GamesResult.mk 0 0 0)

/-- A board whose top row is three aligned X marks while six cells are still
empty.  Its available list is consistent with the cells. -/
def lineNotScanned : State :=
  State.mk [some Player.X, some Player.X, some Player.X,
    none, none, none, none, none, none] [3, 4, 5, 6, 7, 8]

/-- A board where X has the top row, O does not have a line, and only two
cells remain empty. -/
def lineScanned : State :=
  State.mk [some Player.X, some Player.X, some Player.X,
    some Player.O, some Player.O, some Player.X, some Player.O, none, none] [7, 8]

/-- An ongoing board with two marks of each player and `2` at the head of its
available list; the X player wins immediately by playing `2`, so a maximize
step on it finds the value `+1` at the very first loop iteration. -/
def winInOne : State :=
  State.mk [some Player.X, some Player.X, none, some Player.O, some Player.O,
    none, none, none, none] [2, 5, 6, 7, 8]

/-- The same board as `winInOne` but with the moves enumerated in the order
`[5, 2, 6, 7, 8]`: the X player's winning move `2` sits at the second loop
position, behind the sub-optimal move `5` (whose value is a draw). -/
def winInSecond : State :=
  State.mk [some Player.X, some Player.X, none, some Player.O, some Player.O,
    none, none, none, none] [5, 2, 6, 7, 8]

/-- An ongoing board with two marks of each player, enumerated `[5, 2, 6, 7, 8]`:
in a minimize step for self = X, the opponent O wins immediately with move `2`
(value `-1`), which sits at the second loop position behind the sub-optimal
move `5`. -/
def lossInSecond : State :=
  State.mk [some Player.O, some Player.O, none, some Player.X, some Player.X,
    none, none, none, none] [5, 2, 6, 7, 8]

/-- A well-formed ongoing board with three empty cells, used to instantiate
universally quantified theorems at a concrete input. -/
def smallOngoing : State :=
  State.mk [some Player.X, some Player.O, some Player.X, some Player.O,
    some Player.X, some Player.O, none, none, none] [6, 7, 8]


/-! ## Basic lemmas about the rules engine -/

theorem Player.next_next (p : Player) : p.next.next = p := by
  cases p <;> rfl

theorem listPosition_none {m : Nat} :
    ∀ {l : List Nat}, listPosition (fun v => v == m) l = none → m ∉ l := by
  intro l
  induction l with
  | nil => simp
  | cons a t ih =>
    intro h
    simp only [listPosition, beq_iff_eq] at h
    by_cases ha : a = m
    · simp [ha] at h
    · simp only [ha, if_false, Option.map_eq_none'] at h
      simp only [List.mem_cons, not_or]
      exact ⟨fun hm => ha hm.symm, ih h⟩

theorem swapRemove_perm {m : Nat} :
    ∀ {l : List Nat} {i : Nat}, listPosition (fun v => v == m) l = some i →
      List.Perm (swapRemove l i) (l.erase m) := by
  intro l
  induction l with
  | nil => intro i h; simp [listPosition] at h
  | cons a t ih =>
    intro i h
    simp only [listPosition, beq_iff_eq] at h
    by_cases ha : a = m
    · subst ha
      have h0 : i = 0 := by simpa using h.symm
      subst h0
      rw [List.erase_cons_head]
      rcases t with _ | ⟨b, t'⟩
      · simp [swapRemove]
      · unfold swapRemove
        rw [List.getLast?_cons_cons, List.getLast?_eq_getLast (b :: t') (by simp)]
        simp only [List.set_cons_zero]
        rw [List.dropLast_cons₂]
        refine List.Perm.trans
          (List.perm_append_singleton ((b :: t').getLast (by simp)) ((b :: t').dropLast)).symm ?_
        rw [List.dropLast_append_getLast]
    · simp only [ha, if_false, Option.map_eq_some'] at h
      obtain ⟨j, hj, hij⟩ := h
      subst hij
      have ht : t ≠ [] := by
        rintro rfl
        simp [listPosition] at hj
      rw [List.erase_cons_tail (by simp [ha])]
      rcases t with _ | ⟨b, t'⟩
      · exact absurd rfl ht
      · have hsw : swapRemove (a :: b :: t') (j + 1) = a :: swapRemove (b :: t') j := by
          unfold swapRemove
          rw [List.getLast?_cons_cons, List.getLast?_eq_getLast (b :: t') (by simp)]
          simp only [List.set_cons_succ]
          rw [List.dropLast_cons_of_ne_nil (by simp [List.set_eq_nil_iff])]
        rw [hsw]
        exact List.Perm.cons a (ih hj)


theorem act_oob {s : State} {p : Player} {m : Nat} (h : ¬ m < 9) :
    s.act p m = (Except.error MoveError.OutOfBound, s) := by
  unfold State.act
  rw [if_pos h]

theorem act_occupied {s : State} {p : Player} {m : Nat} (h9 : m < 9)
    (hocc : (s.fields.getD m none).isSome) :
    s.act p m = (Except.error MoveError.NonEmptyField, s) := by
  unfold State.act
  rw [if_neg (not_not_intro h9), if_pos hocc]

theorem act_ok_result {s : State} {p : Player} {m : Nat} (h9 : m < 9)
    (hocc : ¬ (s.fields.getD m none).isSome) :
    (s.act p m).1 = Except.ok () ∧
    (s.act p m).2.fields = s.fields.set m (some p) ∧
    List.Perm (s.act p m).2.available_fields (s.available_fields.erase m) := by
  unfold State.act
  rw [if_neg (not_not_intro h9), if_neg hocc]
  refine ⟨rfl, rfl, ?_⟩
  show List.Perm
    (match listPosition (fun value => value == m) s.available_fields with
      | some index => swapRemove s.available_fields index
      | none => s.available_fields)
    (s.available_fields.erase m)
  cases hpos : listPosition (fun value => value == m) s.available_fields with
  | some i =>
    simp only
    exact swapRemove_perm hpos
  | none =>
    simp only
    rw [List.erase_of_not_mem (listPosition_none hpos)]

theorem act_error_state {s : State} {p : Player} {m : Nat} {e : MoveError}
    (h : (s.act p m).1 = Except.error e) : (s.act p m).2 = s := by
  by_cases h9 : m < 9
  · by_cases hocc : (s.fields.getD m none).isSome
    · rw [act_occupied h9 hocc]
    · rw [(act_ok_result h9 hocc).1] at h
      exact absurd h (by simp)
  · rw [act_oob h9]

/-- C4: acting returns `OutOfBound` exactly when the index is not in `[0,9)`;
otherwise `NonEmptyField` exactly when the target cell is occupied; otherwise
it succeeds, writes the mark into the cell and removes the move from the
available list; and on either error the state is unchanged. -/
theorem act_contract (s : State) (p : Player) (m : Nat) :
    ((s.act p m).1 = Except.error MoveError.OutOfBound ↔ ¬ m < 9) ∧
    ((s.act p m).1 = Except.error MoveError.NonEmptyField ↔
      m < 9 ∧ (s.fields.getD m none).isSome) ∧
    ((s.act p m).1 = Except.ok () ↔ m < 9 ∧ ¬ (s.fields.getD m none).isSome) ∧
    (∀ e, (s.act p m).1 = Except.error e → (s.act p m).2 = s) ∧
    ((s.act p m).1 = Except.ok () →
      (s.act p m).2.fields = s.fields.set m (some p) ∧
      List.Perm (s.act p m).2.available_fields (s.available_fields.erase m)) := by
  by_cases h9 : m < 9
  · by_cases hocc : (s.fields.getD m none).isSome
    · rw [act_occupied h9 hocc]
      exact ⟨iff_of_false (by simp) (fun h => h h9),
        iff_of_true rfl ⟨h9, hocc⟩,
        iff_of_false (by simp) (fun h => h.2 hocc),
        fun e h => rfl,
        fun h => absurd h (by simp)⟩
    · obtain ⟨h1, h2, h3⟩ := act_ok_result (p := p) h9 hocc
      rw [h1]
      exact ⟨iff_of_false (by simp) (fun h => h h9),
        iff_of_false (by simp) (fun h => hocc h.2),
        iff_of_true rfl ⟨h9, hocc⟩,
        fun e h => by simp at h,
        fun _ => ⟨h2, h3⟩⟩
  · rw [act_oob (p := p) h9]
    exact ⟨iff_of_true rfl h9,
      iff_of_false (by simp) (fun h => h9 h.1),
      iff_of_false (by simp) (fun h => h9 h.1),
      fun e h => rfl,
      fun h => absurd h (by simp)⟩

/-- Concrete instantiation of the `act` contract: move 9 on the empty board
is rejected and leaves the state untouched; move 4 succeeds, writes an X into
cell 4 and removes 4 from the available list. -/
theorem act_contract_witness :
    (State.new.act Player.X 9).2 = State.new ∧
    (State.new.act Player.X 4).2.fields = State.new.fields.set 4 (some Player.X) ∧
    List.Perm (State.new.act Player.X 4).2.available_fields
      (State.new.available_fields.erase 4) :=
  ⟨(act_contract State.new Player.X 9).2.2.2.1 MoveError.OutOfBound rfl,
   ((act_contract State.new Player.X 4).2.2.2.2 rfl).1,
   ((act_contract State.new Player.X 4).2.2.2.2 rfl).2⟩

/-- C2 counterexample: a well-formed board whose top row is three aligned X
marks but with six empty cells is classified `OnGoing`, not `Finished`,
because `Game::winner` skips the line scan when more than four moves remain
available. -/
theorem aligned_marks_not_reported :
    hasLine lineNotScanned.fields Player.X = true ∧
    WfState lineNotScanned ∧
    Game.status lineNotScanned = Status.OnGoing ∧
    Game.status lineNotScanned ≠ Status.Finished (some Player.X) := by
  refine ⟨by decide, by decide, by decide, by decide⟩

/-- C2 amended: when at most four cells remain empty, a board on which `p`
has three aligned marks and the opponent has none is classified
`Finished(Some p)`. -/
theorem aligned_marks_reported (s : State) (p : Player)
    (hlen : s.available_fields.length ≤ 4)
    (hline : hasLine s.fields p = true)
    (hopp : hasLine s.fields p.next = false) :
    Game.status s = Status.Finished (some p) := by
  have h4 : ¬ 4 < s.available_fields.length := by omega
  cases p with
  | X => simp [Game.status, Game.winner, h4, hline]
  | O =>
    have hX : hasLine s.fields Player.X = false := hopp
    simp [Game.status, Game.winner, h4, hline, hX]

/-- Concrete instantiation of the amended C2: with two empty cells, the X
top row is detected and reported. -/
theorem aligned_marks_reported_witness :
    Game.status lineScanned = Status.Finished (some Player.X) :=
  aligned_marks_reported lineScanned Player.X (by decide) (by decide) (by decide)


/-- C9: whenever the policy's chosen move is rejected by the rules engine,
one iteration of the `Game::play` loop hands the turn back to the very same
mover with the board unchanged, for every policy, mover and board. -/
theorem play_retries_same_mover (pol : Player → State → Nat) (cur : Player)
    (b : State) (e : MoveError)
    (herr : (b.act cur (pol cur b)).1 = Except.error e) :
    playStep pol cur b = PlayOutcome.continueWith cur b := by
  simp only [playStep, herr, act_error_state herr, Player.next_next]

/-- Concrete instantiation of C9: a policy that proposes the out-of-bounds
move 9 on the initial board is asked again with the board unchanged. -/
theorem play_retries_same_mover_witness :
    playStep (fun _ _ => 9) Player.X State.new =
      PlayOutcome.continueWith Player.X State.new :=
  play_retries_same_mover (fun _ _ => 9) Player.X State.new MoveError.OutOfBound rfl

theorem tallyGame_total (fp : Bool) (r : Option Player) (g : GamesResult) :
    (tallyGame fp r g).total = g.total + 1 := by
  unfold tallyGame GamesResult.total
  cases r with
  | none => simp; omega
  | some q => cases q <;> split_ifs <;> simp <;> omega

theorem playGamesGo_total (res : Nat → Option Player) :
    ∀ (n : Nat) (fp : Bool) (g : GamesResult),
      (playGamesGo res n fp g).total = g.total + n := by
  intro n
  induction n with
  | zero => intro fp g; rfl
  | succ k ih =>
    intro fp g
    unfold playGamesGo
    rw [ih, tallyGame_total]
    omega

theorem play_games_total (res : Nat → Option Player) (n : Nat) :
    (play_games res n).total = n := by
  unfold play_games
  rw [playGamesGo_total]
  simp [GamesResult.total]

theorem GamesResult.add_total (g h : GamesResult) :
    (g.add h).total = g.total + h.total := by
  unfold GamesResult.add GamesResult.total
  simp
  omega

theorem playBatch_fold_total (res : Nat → Nat → Option Player) (k : Nat) :
    ∀ (l : List Nat) (z : GamesResult),
      (l.foldl (fun acc w => acc.add (play_games (res w) k)) z).total =
        z.total + l.length * k := by
  intro l
  induction l with
  | nil => intro z; simp
  | cons a t ih =>
    intro z
    simp only [List.foldl_cons, List.length_cons]
    rw [ih, GamesResult.add_total, play_games_total]
    ring

/-- C8: a batch of `N` games with hardware parallelism `P` uses
`W = min(P, N)` workers, each playing exactly `N / W` games (integer
division), so the total game count in the final tally is `W * (N / W)` and,
whenever the division has a remainder, that is strictly fewer than `N`
games. -/
theorem harness_game_count (res : Nat → Nat → Option Player) (P N : Nat) :
    (playBatch res P N).total = (min P N) * (N / (min P N)) ∧
    (N % (min P N) ≠ 0 → (playBatch res P N).total < N) := by
  have htot : (playBatch res P N).total = (min P N) * (N / (min P N)) := by
    unfold playBatch
    rw [playBatch_fold_total]
    simp [GamesResult.total, Nat.mul_comm]
  refine ⟨htot, fun hrem => ?_⟩
  rw [htot]
  have hdm := Nat.div_add_mod N (min P N)
  omega

/-- Concrete instantiation of C8: 10 games on 4 workers play only 8 games. -/
theorem harness_game_count_witness :
    (playBatch (fun _ _ => none) 4 10).total = 8 ∧
    (playBatch (fun _ _ => none) 4 10).total < 10 :=
  ⟨((harness_game_count (fun _ _ => none) 4 10).1).trans (by decide),
   (harness_game_count (fun _ _ => none) 4 10).2 (by decide)⟩


theorem countP_set (pr : Cell → Bool) :
    ∀ (l : List Cell) (i : Nat) (v : Cell), i < l.length →
      (l.set i v).countP pr + (if pr (l.getD i none) then 1 else 0) =
        l.countP pr + (if pr v then 1 else 0) := by
  intro l
  induction l with
  | nil => intro i v h; simp at h
  | cons a t ih =>
    intro i v h
    cases i with
    | zero =>
      simp only [List.set_cons_zero, List.getD_cons_zero, List.countP_cons]
      omega
    | succ j =>
      simp only [List.set_cons_succ, List.getD_cons_succ, List.countP_cons]
      have := ih j v (by simpa using h)
      omega

theorem countOccupied_add_countEmpty (f : List Cell) :
    countOccupied f + countEmpty f = f.length := by
  unfold countOccupied countEmpty
  induction f with
  | nil => rfl
  | cons c t ih =>
    simp only [List.countP_cons, List.length_cons]
    cases c <;> simp <;> omega

theorem getD_eq_none_of_not_isSome {f : List Cell} {i : Nat}
    (h : ¬ (f.getD i none).isSome) : f.getD i none = none := by
  cases hg : f.getD i none with
  | none => rfl
  | some q => rw [hg] at h; simp at h

/-- A successful act on a well-formed state: the move was legal, the result
is well-formed, the available list shrinks by exactly one, the board gains
the mover's mark at the played cell, and the empty-cell count drops by one. -/
theorem wf_act {s : State} {p : Player} {a : Nat} (hwf : WfState s)
    (hok : (s.act p a).1 = Except.ok ()) :
    a ∈ s.available_fields ∧
    WfState (s.act p a).2 ∧
    (s.act p a).2.available_fields.length + 1 = s.available_fields.length ∧
    (s.act p a).2.fields = s.fields.set a (some p) ∧
    countEmpty (s.act p a).2.fields + 1 = countEmpty s.fields := by
  obtain ⟨hlen, hnd, hlt, hiff⟩ := hwf
  have h9 : a < 9 := by
    by_contra h9
    rw [(act_contract s p a).1.mpr h9] at hok
    simp at hok
  have hocc : ¬ (s.fields.getD a none).isSome := by
    intro hocc
    rw [((act_contract s p a).2.1.mpr ⟨h9, hocc⟩ : _)] at hok
    simp at hok
  have hnone : s.fields.getD a none = none := getD_eq_none_of_not_isSome hocc
  have hmem : a ∈ s.available_fields := (hiff a h9).mp hnone
  obtain ⟨hfields, hperm⟩ := (act_contract s p a).2.2.2.2 hok
  have hlen' : (s.act p a).2.available_fields.length + 1 = s.available_fields.length := by
    rw [hperm.length_eq, List.length_erase_of_mem hmem]
    have : 0 < s.available_fields.length := List.length_pos_of_mem hmem
    omega
  have hcount : countEmpty (s.act p a).2.fields + 1 = countEmpty s.fields := by
    rw [hfields]
    have := countP_set (fun c => c.isNone) s.fields a (some p) (by omega)
    rw [hnone] at this
    simp at this
    unfold countEmpty
    omega
  refine ⟨hmem, ⟨?_, ?_, ?_, ?_⟩, hlen', hfields, hcount⟩
  · rw [hfields, List.length_set, hlen]
  · exact hperm.symm.nodup (hnd.erase a)
  · intro i hi
    exact hlt i (List.erase_subset a s.available_fields (hperm.mem_iff.mp hi))
  · intro i hi
    rw [hperm.mem_iff, hnd.mem_erase_iff, hfields]
    by_cases hia : i = a
    · subst hia
      rw [List.getD_eq_getElem?_getD, List.getElem?_set_self (by omega)]
      simp
    · rw [List.getD_eq_getElem?_getD, List.getElem?_set_ne (fun h => hia h.symm),
        ← List.getD_eq_getElem?_getD]
      rw [hiff i hi]
      constructor
      · intro h; exact ⟨hia, h⟩
      · intro h; exact h.2

/-- The full invariant carried along reachable states. -/
theorem reachable_wf (s : State) (h : ReachableState s) :
    WfState s ∧ countEmpty s.fields = s.available_fields.length := by
  induction h with
  | init => exact ⟨by decide, by decide⟩
  | step p a hr hok ih =>
    obtain ⟨hwf, hcount⟩ := ih
    obtain ⟨hmem, hwf', hlen', hfields, hcount'⟩ := wf_act hwf hok
    exact ⟨hwf', by omega⟩

/-- C6: every state reachable by successful apply calls has
occupied cells + available moves = 9, and its available list holds exactly
the empty cell indices, each exactly once. -/
theorem reachable_state_invariant (s : State) (h : ReachableState s) :
    countOccupied s.fields + s.available_fields.length = 9 ∧
    s.available_fields.Nodup ∧
    (∀ i, i ∈ s.available_fields ↔ i < 9 ∧ s.fields.getD i none = none) := by
  obtain ⟨⟨hlen, hnd, hlt, hiff⟩, hcount⟩ := reachable_wf s h
  refine ⟨?_, hnd, ?_⟩
  · have := countOccupied_add_countEmpty s.fields
    omega
  · intro i
    constructor
    · intro hi
      exact ⟨hlt i hi, (hiff i (hlt i hi)).mpr hi⟩
    · intro ⟨h9, hn⟩
      exact (hiff i h9).mp hn

/-- Concrete instantiation of C6 at a reachable state: the empty board after
X plays cell 4. -/
theorem reachable_state_invariant_witness :
    countOccupied ((State.new.act Player.X 4).2).fields +
      ((State.new.act Player.X 4).2).available_fields.length = 9 ∧
    ((State.new.act Player.X 4).2).available_fields.Nodup ∧
    (∀ i, i ∈ ((State.new.act Player.X 4).2).available_fields ↔
      i < 9 ∧ ((State.new.act Player.X 4).2).fields.getD i none = none) :=
  reachable_state_invariant _ (ReachableState.step Player.X 4 ReachableState.init rfl)


theorem act_ok_countEmpty {s : State} {p : Player} {a : Nat}
    (hlen : s.fields.length = 9) (hok : (s.act p a).1 = Except.ok ()) :
    countEmpty (s.act p a).2.fields + 1 = countEmpty s.fields := by
  have h9 : a < 9 := by
    by_contra h9
    rw [(act_contract s p a).1.mpr h9] at hok
    simp at hok
  have hocc : ¬ (s.fields.getD a none).isSome := by
    intro hocc
    rw [((act_contract s p a).2.1.mpr ⟨h9, hocc⟩ : _)] at hok
    simp at hok
  have hnone : s.fields.getD a none = none := getD_eq_none_of_not_isSome hocc
  rw [((act_contract s p a).2.2.2.2 hok).1]
  have := countP_set (fun c => c.isNone) s.fields a (some p) (by omega)
  rw [hnone] at this
  simp at this
  unfold countEmpty
  omega

theorem act_fields_length {s : State} {p : Player} {a : Nat}
    (hok : (s.act p a).1 = Except.ok ()) :
    (s.act p a).2.fields.length = s.fields.length := by
  rw [((act_contract s p a).2.2.2.2 hok).1, List.length_set]

theorem stateStep_decrease {s t : State} (hlen : s.fields.length = 9)
    (h : StateStep s t) :
    t.fields.length = 9 ∧ countEmpty t.fields + 1 = countEmpty s.fields := by
  obtain ⟨p, a, hok, rfl⟩ := h
  exact ⟨by rw [act_fields_length hok, hlen], act_ok_countEmpty hlen hok⟩

theorem transGen_decrease {s t : State} (htg : Relation.TransGen StateStep s t)
    (hlen : s.fields.length = 9) :
    t.fields.length = 9 ∧ countEmpty t.fields < countEmpty s.fields := by
  induction htg with
  | single h =>
    obtain ⟨h1, h2⟩ := stateStep_decrease hlen h
    exact ⟨h1, by omega⟩
  | tail htg h ih =>
    obtain ⟨h1, h2⟩ := ih
    obtain ⟨h3, h4⟩ := stateStep_decrease h1 h
    exact ⟨h3, by omega⟩

theorem stepChain_count {n : Nat} {s t : State} (hc : StepChain n s t)
    (hlen : s.fields.length = 9) :
    t.fields.length = 9 ∧ countEmpty t.fields + n = countEmpty s.fields := by
  induction hc with
  | refl s => exact ⟨hlen, rfl⟩
  | step h hc ih =>
    obtain ⟨h1, h2⟩ := stateStep_decrease hlen h
    obtain ⟨h3, h4⟩ := ih h1
    exact ⟨h3, by omega⟩

/-- C7: a successful apply strictly decreases the empty-cell count by one
(and on well-formed states shrinks the available list by one); consequently
the reachable-state graph is acyclic (no state reaches itself by a nonempty
chain of legal moves) and every chain of legal moves from a reachable state,
hence the recursion depth of any traversal that applies one move per level,
is bounded by 9. -/
theorem legal_moves_terminate :
    (∀ (s : State) (p : Player) (a : Nat), s.fields.length = 9 →
      (s.act p a).1 = Except.ok () →
      countEmpty (s.act p a).2.fields + 1 = countEmpty s.fields) ∧
    (∀ (s : State) (p : Player) (a : Nat), WfState s →
      (s.act p a).1 = Except.ok () →
      (s.act p a).2.available_fields.length + 1 = s.available_fields.length) ∧
    (∀ s : State, ReachableState s → ¬ Relation.TransGen StateStep s s) ∧
    (∀ (n : Nat) (s t : State), ReachableState s → StepChain n s t → n ≤ 9) := by
  refine ⟨fun s p a hlen hok => act_ok_countEmpty hlen hok,
    fun s p a hwf hok => (wf_act hwf hok).2.2.1, ?_, ?_⟩
  · intro s hr htg
    have hlen : s.fields.length = 9 := (reachable_wf s hr).1.1
    have := (transGen_decrease htg hlen).2
    omega
  · intro n s t hr hc
    have hlen : s.fields.length = 9 := (reachable_wf s hr).1.1
    have h2 := (stepChain_count hc hlen).2
    have h3 : countEmpty s.fields ≤ 9 := by
      have := List.countP_le_length (p := fun c => c.isNone) (l := s.fields)
      unfold countEmpty
      omega
    omega

/-- Concrete instantiation of C7: playing cell 0 on the empty board drops the
empty count from 9 to 8 and shrinks the available list from 9 to 8 entries;
the empty board does not reach itself; a two-step chain stays within depth 9. -/
theorem legal_moves_terminate_witness :
    countEmpty ((State.new.act Player.X 0).2).fields + 1 = countEmpty State.new.fields ∧
    ((State.new.act Player.X 0).2).available_fields.length + 1 =
      State.new.available_fields.length ∧
    ¬ Relation.TransGen StateStep State.new State.new ∧
    (1 : Nat) ≤ 9 :=
  ⟨legal_moves_terminate.1 State.new Player.X 0 rfl rfl,
   legal_moves_terminate.2.1 State.new Player.X 0 (by decide) rfl,
   legal_moves_terminate.2.2.1 State.new ReachableState.init,
   legal_moves_terminate.2.2.2 1 State.new (State.new.act Player.X 0).2
     ReachableState.init
     (StepChain.step ⟨Player.X, 0, rfl, rfl⟩ (StepChain.refl _))⟩


theorem searchLoop_cons_true {σ : Type} {eval : σ → State → Int × σ}
    {better : Int → Int → Bool} {us : Bool} {stop : Int} {s : State} {mv : Player}
    {a : Nat} {rest : List Nat} {acc : σ} {hv : Int} {bm : Option Nat}
    (hb : better (eval acc (s.act mv a).2).1 hv = true) :
    searchLoop eval better us stop s mv (a :: rest) acc hv bm =
      if us && ((eval acc (s.act mv a).2).1 == stop)
      then ((eval acc (s.act mv a).2).1, some a, (eval acc (s.act mv a).2).2)
      else searchLoop eval better us stop s mv rest (eval acc (s.act mv a).2).2
        (eval acc (s.act mv a).2).1 (some a) := by
  simp only [searchLoop, hb, if_true]

theorem searchLoop_cons_false {σ : Type} {eval : σ → State → Int × σ}
    {better : Int → Int → Bool} {us : Bool} {stop : Int} {s : State} {mv : Player}
    {a : Nat} {rest : List Nat} {acc : σ} {hv : Int} {bm : Option Nat}
    (hb : better (eval acc (s.act mv a).2).1 hv = false) :
    searchLoop eval better us stop s mv (a :: rest) acc hv bm =
      if us && (hv == stop)
      then (hv, bm, (eval acc (s.act mv a).2).2)
      else searchLoop eval better us stop s mv rest (eval acc (s.act mv a).2).2 hv bm := by
  simp only [searchLoop, hb, Bool.false_eq_true, if_false]

theorem searchLoop_nil {σ : Type} {eval : σ → State → Int × σ}
    {better : Int → Int → Bool} {us : Bool} {stop : Int} {s : State} {mv : Player}
    {acc : σ} {hv : Int} {bm : Option Nat} :
    searchLoop eval better us stop s mv [] acc hv bm = (hv, bm, acc) := rfl


theorem utility_range (w : Option Player) (p : Player) :
    -1 ≤ utility w p ∧ utility w p ≤ 1 := by
  cases w with
  | none => simp [utility]
  | some q => by_cases h : q = p <;> simp [utility, h]

theorem ongoing_nonempty {s : State} (h : Game.status s = Status.OnGoing) :
    s.available_fields ≠ [] := by
  unfold Game.status at h
  intro hnil
  cases hw : Game.winner s with
  | some w => rw [hw] at h; simp at h
  | none =>
    rw [hw] at h
    rw [if_pos (by simp [hnil])] at h
    simp at h

theorem searchLoop_isSome {σ : Type} (eval : σ → State → Int × σ)
    (better : Int → Int → Bool) (us : Bool) (stop : Int) (s : State) (mv : Player) :
    ∀ (l : List Nat) (acc : σ) (hv : Int) (bm : Option Nat), bm.isSome →
      (searchLoop eval better us stop s mv l acc hv bm).2.1.isSome := by
  intro l
  induction l with
  | nil => intro acc hv bm h; exact h
  | cons a rest ih =>
    intro acc hv bm h
    cases hb : better (eval acc (s.act mv a).2).1 hv with
    | false =>
      rw [searchLoop_cons_false hb]
      split
      · exact h
      · exact ih _ _ _ h
    | true =>
      rw [searchLoop_cons_true hb]
      split
      · simp
      · exact ih _ _ _ (by simp)

theorem loopMax_range {σ : Type} (eval : σ → State → Int × σ) (us : Bool)
    (stop : Int) (s : State) (mv : Player) :
    ∀ (l : List Nat) (acc : σ) (hv : Int) (bm : Option Nat),
      (∀ (acc' : σ) (a : Nat), a ∈ l →
        -1 ≤ (eval acc' (s.act mv a).2).1 ∧ (eval acc' (s.act mv a).2).1 ≤ 1) →
      ((-1 ≤ hv ∧ hv ≤ 1) ∨ (hv = -10 ∧ l ≠ [])) →
      -1 ≤ (searchLoop eval (fun v h => decide (h < v)) us stop s mv l acc hv bm).1 ∧
        (searchLoop eval (fun v h => decide (h < v)) us stop s mv l acc hv bm).1 ≤ 1 := by
  intro l
  induction l with
  | nil =>
    intro acc hv bm hvals hinit
    rcases hinit with h | ⟨_, hne⟩
    · exact h
    · exact absurd rfl hne
  | cons a rest ih =>
    intro acc hv bm hvals hinit
    obtain ⟨hlo, hhi⟩ := hvals acc a (List.mem_cons_self a rest)
    by_cases hb : hv < (eval acc (s.act mv a).2).1
    · rw [searchLoop_cons_true (by simpa using hb)]
      split
      · exact ⟨hlo, hhi⟩
      · exact ih _ _ _ (fun acc' x hx => hvals acc' x (List.mem_cons_of_mem a hx))
          (Or.inl ⟨hlo, hhi⟩)
    · rw [searchLoop_cons_false (by simpa using hb)]
      have hrange : -1 ≤ hv ∧ hv ≤ 1 := by
        rcases hinit with h | ⟨h10, _⟩
        · exact h
        · rw [h10] at hb; omega
      split
      · exact hrange
      · exact ih _ _ _ (fun acc' x hx => hvals acc' x (List.mem_cons_of_mem a hx))
          (Or.inl hrange)

theorem loopMin_range {σ : Type} (eval : σ → State → Int × σ) (us : Bool)
    (stop : Int) (s : State) (mv : Player) :
    ∀ (l : List Nat) (acc : σ) (hv : Int) (bm : Option Nat),
      (∀ (acc' : σ) (a : Nat), a ∈ l →
        -1 ≤ (eval acc' (s.act mv a).2).1 ∧ (eval acc' (s.act mv a).2).1 ≤ 1) →
      ((-1 ≤ hv ∧ hv ≤ 1) ∨ (hv = 10 ∧ l ≠ [])) →
      -1 ≤ (searchLoop eval (fun v h => decide (v < h)) us stop s mv l acc hv bm).1 ∧
        (searchLoop eval (fun v h => decide (v < h)) us stop s mv l acc hv bm).1 ≤ 1 := by
  intro l
  induction l with
  | nil =>
    intro acc hv bm hvals hinit
    rcases hinit with h | ⟨_, hne⟩
    · exact h
    · exact absurd rfl hne
  | cons a rest ih =>
    intro acc hv bm hvals hinit
    obtain ⟨hlo, hhi⟩ := hvals acc a (List.mem_cons_self a rest)
    by_cases hb : (eval acc (s.act mv a).2).1 < hv
    · rw [searchLoop_cons_true (by simpa using hb)]
      split
      · exact ⟨hlo, hhi⟩
      · exact ih _ _ _ (fun acc' x hx => hvals acc' x (List.mem_cons_of_mem a hx))
          (Or.inl ⟨hlo, hhi⟩)
    · rw [searchLoop_cons_false (by simpa using hb)]
      have hrange : -1 ≤ hv ∧ hv ≤ 1 := by
        rcases hinit with h | ⟨h10, _⟩
        · exact h
        · rw [h10] at hb; omega
      split
      · exact hrange
      · exact ih _ _ _ (fun acc' x hx => hvals acc' x (List.mem_cons_of_mem a hx))
          (Or.inl hrange)

theorem minimaxL_range : ∀ (fuel : Nat) (isMax : Bool) (kn : Kn) (s : State) (p : Player),
    -1 ≤ (minimaxL fuel isMax kn s p).1 ∧ (minimaxL fuel isMax kn s p).1 ≤ 1 := by
  intro fuel
  induction fuel with
  | zero => intro isMax kn s p; simp [minimaxL]
  | succ f ih =>
    intro isMax kn s p
    cases isMax with
    | true =>
      simp only [minimaxL]
      cases hst : Game.status s with
      | Finished w => exact utility_range w p
      | OnGoing =>
        exact loopMax_range
          (fun kn' s' => let m := minimaxL f false kn' s' p; (m.1, m.2.2))
          false 0 s p s.available_fields kn (-10) none
          (fun acc' x _ => ih false acc' (s.act p x).2 p)
          (Or.inr ⟨rfl, ongoing_nonempty hst⟩)
    | false =>
      simp only [minimaxL]
      cases hst : Game.status s with
      | Finished w => exact utility_range w p
      | OnGoing =>
        exact loopMin_range
          (fun kn' s' => let m := minimaxL f true kn' s' p; (m.1, m.2.2))
          false 0 s p.next s.available_fields kn 10 none
          (fun acc' x _ => ih true acc' (s.act p.next x).2 p)
          (Or.inr ⟨rfl, ongoing_nonempty hst⟩)

theorem loopMax_isSome {σ : Type} (eval : σ → State → Int × σ) (us : Bool)
    (stop : Int) (s : State) (mv : Player) (a : Nat) (rest : List Nat) (acc : σ) (hv : Int)
    (bm : Option Nat) (hvlt : hv < -1) (hval : -1 ≤ (eval acc (s.act mv a).2).1) :
    (searchLoop eval (fun v h => decide (h < v)) us stop s mv (a :: rest) acc hv bm).2.1.isSome := by
  rw [searchLoop_cons_true (by simp; omega)]
  split
  · simp
  · exact searchLoop_isSome eval _ us stop s mv rest _ _ _ (by simp)

theorem loopMin_isSome {σ : Type} (eval : σ → State → Int × σ) (us : Bool)
    (stop : Int) (s : State) (mv : Player) (a : Nat) (rest : List Nat) (acc : σ) (hv : Int)
    (bm : Option Nat) (hvgt : 1 < hv) (hval : (eval acc (s.act mv a).2).1 ≤ 1) :
    (searchLoop eval (fun v h => decide (v < h)) us stop s mv (a :: rest) acc hv bm).2.1.isSome := by
  rw [searchLoop_cons_true (by simp; omega)]
  split
  · simp
  · exact searchLoop_isSome eval _ us stop s mv rest _ _ _ (by simp)

/-- C10: every ongoing state has a nonempty available-move list, and on
ongoing states the move selected by a maximize or minimize step of the
learning search is always `Some` (so the unchecked unwrap of the best or
worst move never observes `None`), for any knowledge table, player and
fuel. -/
theorem ongoing_unwrap_safe :
    (∀ s : State, Game.status s = Status.OnGoing → s.available_fields ≠ []) ∧
    (∀ (fuel : Nat) (isMax : Bool) (kn : Kn) (s : State) (p : Player),
      Game.status s = Status.OnGoing →
      ((minimaxL (fuel + 1) isMax kn s p).2.1).isSome) := by
  refine ⟨fun s h => ongoing_nonempty h, ?_⟩
  intro fuel isMax kn s p hst
  obtain ⟨a, rest, hl⟩ : ∃ a rest, s.available_fields = a :: rest := by
    cases hav : s.available_fields with
    | nil => exact absurd hav (ongoing_nonempty hst)
    | cons a rest => exact ⟨_, _, rfl⟩
  cases isMax with
  | true =>
    simp only [minimaxL]
    rw [hst, hl]
    exact loopMax_isSome
      (fun kn' s' => let m := minimaxL fuel false kn' s' p; (m.1, m.2.2))
      false 0 s p a rest kn (-10) none (by norm_num)
      (minimaxL_range fuel false kn _ p).1
  | false =>
    simp only [minimaxL]
    rw [hst, hl]
    exact loopMin_isSome
      (fun kn' s' => let m := minimaxL fuel true kn' s' p; (m.1, m.2.2))
      false 0 s p.next a rest kn 10 none (by norm_num)
      (minimaxL_range fuel true kn _ p).2

/-- Concrete instantiation of C10 at an ongoing three-empty-cell board. -/
theorem ongoing_unwrap_safe_witness :
    smallOngoing.available_fields ≠ [] ∧
    ((minimaxL 1 true [] smallOngoing Player.X).2.1).isSome :=
  ⟨ongoing_unwrap_safe.1 smallOngoing (by decide),
   ongoing_unwrap_safe.2 0 true [] smallOngoing Player.X (by decide)⟩



/-- C5 counterexample: in the learning variant, a maximize step on a board
whose first available move wins immediately (value +1) still examines the
later moves: the final knowledge table contains the child state reached by
the second available move, which an early-exiting loop would never have
visited.  The first conjunct fixes the enumeration order, the second shows
the first move's value is the maximal +1, the third shows a later move was
nevertheless explored. -/
theorem learning_explores_after_win :
    winInOne.available_fields = 2 :: [5, 6, 7, 8] ∧
    (minimaxL 5 false [] ((winInOne.act Player.X 2).2) Player.X).1 = 1 ∧
    (knFind (minimaxL 6 true [] winInOne Player.X).2.2
      ((winInOne.act Player.X 5).2).fields).isSome = true := by
  refine ⟨rfl, by decide, by decide⟩



theorem empty_avail_finished {s : State} (h : s.available_fields = []) :
    ∃ w, Game.status s = Status.Finished w := by
  unfold Game.status
  cases hw : Game.winner s with
  | some w => exact ⟨some w, rfl⟩
  | none => exact ⟨none, by rw [if_pos (by simp [h])]⟩

theorem wf_act_ok {s : State} {a : Nat} (hwf : WfState s)
    (ha : a ∈ s.available_fields) (p : Player) : (s.act p a).1 = Except.ok () := by
  obtain ⟨hlen, hnd, hlt, hiff⟩ := hwf
  have h9 : a < 9 := hlt a ha
  refine (act_contract s p a).2.2.1.mpr ⟨h9, ?_⟩
  rw [(hiff a h9).mpr ha]
  simp

theorem minimaxL_finished {f : Nat} {isMax : Bool} {kn : Kn} {s : State} {p : Player}
    {w : Option Player} (hst : Game.status s = Status.Finished w) :
    minimaxL (f + 1) isMax kn s p = (utility w p, none, kn) := by
  cases isMax <;> (simp only [minimaxL]; rw [hst])

theorem minimaxOS_finished {f : Nat} {isMax : Bool} {s : State} {p : Player}
    {w : Option Player} (hst : Game.status s = Status.Finished w) :
    minimaxOS (f + 1) isMax s p = (utility w p, none) := by
  cases isMax <;> (simp only [minimaxOS]; rw [hst])

theorem optimalValue_finished {f : Nat} {isMax : Bool} {s : State} {p : Player}
    {w : Option Player} (hst : Game.status s = Status.Finished w) :
    optimalValue (f + 1) isMax s p = utility w p := by
  cases isMax <;> (simp only [optimalValue]; rw [hst])

theorem minimaxL_ongoing_true {f : Nat} {kn : Kn} {s : State} {p : Player}
    (hst : Game.status s = Status.OnGoing) :
    minimaxL (f + 1) true kn s p =
      ((searchLoop (fun kn' s' => let m := minimaxL f false kn' s' p; (m.1, m.2.2))
          (fun v h => decide (h < v)) false 0 s p s.available_fields kn (-10) none).1,
       (searchLoop (fun kn' s' => let m := minimaxL f false kn' s' p; (m.1, m.2.2))
          (fun v h => decide (h < v)) false 0 s p s.available_fields kn (-10) none).2.1,
       knInsert
         (searchLoop (fun kn' s' => let m := minimaxL f false kn' s' p; (m.1, m.2.2))
            (fun v h => decide (h < v)) false 0 s p s.available_fields kn (-10) none).2.2
         s.fields
         ((searchLoop (fun kn' s' => let m := minimaxL f false kn' s' p; (m.1, m.2.2))
            (fun v h => decide (h < v)) false 0 s p s.available_fields kn (-10) none).2.1.getD 0)) := by
  simp only [minimaxL]
  rw [hst]

theorem minimaxL_ongoing_false {f : Nat} {kn : Kn} {s : State} {p : Player}
    (hst : Game.status s = Status.OnGoing) :
    minimaxL (f + 1) false kn s p =
      ((searchLoop (fun kn' s' => let m := minimaxL f true kn' s' p; (m.1, m.2.2))
          (fun v h => decide (v < h)) false 0 s p.next s.available_fields kn 10 none).1,
       (searchLoop (fun kn' s' => let m := minimaxL f true kn' s' p; (m.1, m.2.2))
          (fun v h => decide (v < h)) false 0 s p.next s.available_fields kn 10 none).2.1,
       knInsert
         (searchLoop (fun kn' s' => let m := minimaxL f true kn' s' p; (m.1, m.2.2))
            (fun v h => decide (v < h)) false 0 s p.next s.available_fields kn 10 none).2.2
         s.fields
         ((searchLoop (fun kn' s' => let m := minimaxL f true kn' s' p; (m.1, m.2.2))
            (fun v h => decide (v < h)) false 0 s p.next s.available_fields kn 10 none).2.1.getD 0)) := by
  simp only [minimaxL]
  rw [hst]

theorem minimaxOS_ongoing_true {f : Nat} {s : State} {p : Player}
    (hst : Game.status s = Status.OnGoing) :
    minimaxOS (f + 1) true s p =
      ((searchLoop (fun _ s' => ((minimaxOS f false s' p).1, ()))
          (fun v h => decide (h < v)) true 1 s p s.available_fields () (-10) none).1,
       (searchLoop (fun _ s' => ((minimaxOS f false s' p).1, ()))
          (fun v h => decide (h < v)) true 1 s p s.available_fields () (-10) none).2.1) := by
  simp only [minimaxOS]
  rw [hst]

theorem minimaxOS_ongoing_false {f : Nat} {s : State} {p : Player}
    (hst : Game.status s = Status.OnGoing) :
    minimaxOS (f + 1) false s p =
      ((searchLoop (fun _ s' => ((minimaxOS f true s' p).1, ()))
          (fun v h => decide (v < h)) true (-1) s p.next s.available_fields () 10 none).1,
       (searchLoop (fun _ s' => ((minimaxOS f true s' p).1, ()))
          (fun v h => decide (v < h)) true (-1) s p.next s.available_fields () 10 none).2.1) := by
  simp only [minimaxOS]
  rw [hst]

theorem optimalValue_ongoing_true {f : Nat} {s : State} {p : Player}
    (hst : Game.status s = Status.OnGoing) :
    optimalValue (f + 1) true s p =
      listMax (s.available_fields.map (fun a => optimalValue f false (s.act p a).2 p)) := by
  simp only [optimalValue]
  rw [hst]

theorem optimalValue_ongoing_false {f : Nat} {s : State} {p : Player}
    (hst : Game.status s = Status.OnGoing) :
    optimalValue (f + 1) false s p =
      listMin (s.available_fields.map (fun a => optimalValue f true (s.act p.next a).2 p)) := by
  simp only [optimalValue]
  rw [hst]

theorem le_foldl_max : ∀ (xs : List Int) (x : Int), x ≤ xs.foldl max x := by
  intro xs
  induction xs with
  | nil => intro x; exact le_refl x
  | cons y ys ih =>
    intro x
    exact le_trans (le_max_left x y) (ih (max x y))

theorem mem_le_foldl_max : ∀ (xs : List Int) (x v : Int), v ∈ xs → v ≤ xs.foldl max x := by
  intro xs
  induction xs with
  | nil => intro x v h; simp at h
  | cons y ys ih =>
    intro x v h
    rcases List.mem_cons.mp h with rfl | h
    · exact le_trans (le_max_right x v) (le_foldl_max ys (max x v))
    · exact ih (max x y) v h

theorem foldl_max_mem : ∀ (xs : List Int) (x : Int),
    xs.foldl max x = x ∨ xs.foldl max x ∈ xs := by
  intro xs
  induction xs with
  | nil => intro x; exact Or.inl rfl
  | cons y ys ih =>
    intro x
    rcases ih (max x y) with h | h
    · rcases max_choice x y with hm | hm
      · exact Or.inl (by rw [List.foldl_cons, h, hm])
      · exact Or.inr (by rw [List.foldl_cons, h, hm]; exact List.mem_cons_self y ys)
    · exact Or.inr (List.mem_cons_of_mem y h)

theorem mem_le_listMax {l : List Int} {v : Int} (h : v ∈ l) : v ≤ listMax l := by
  cases l with
  | nil => simp at h
  | cons x xs =>
    rcases List.mem_cons.mp h with rfl | h
    · exact le_foldl_max xs v
    · exact mem_le_foldl_max xs x v h

theorem listMax_mem {l : List Int} (h : l ≠ []) : listMax l ∈ l := by
  cases l with
  | nil => exact absurd rfl h
  | cons x xs =>
    rcases foldl_max_mem xs x with hm | hm
    · rw [listMax, hm]; exact List.mem_cons_self x xs
    · exact List.mem_cons_of_mem x hm

theorem ge_foldl_min : ∀ (xs : List Int) (x : Int), xs.foldl min x ≤ x := by
  intro xs
  induction xs with
  | nil => intro x; exact le_refl x
  | cons y ys ih =>
    intro x
    exact le_trans (ih (min x y)) (min_le_left x y)

theorem foldl_min_le_mem : ∀ (xs : List Int) (x v : Int), v ∈ xs → xs.foldl min x ≤ v := by
  intro xs
  induction xs with
  | nil => intro x v h; simp at h
  | cons y ys ih =>
    intro x v h
    rcases List.mem_cons.mp h with rfl | h
    · exact le_trans (ge_foldl_min ys (min x v)) (min_le_right x v)
    · exact ih (min x y) v h

theorem foldl_min_mem : ∀ (xs : List Int) (x : Int),
    xs.foldl min x = x ∨ xs.foldl min x ∈ xs := by
  intro xs
  induction xs with
  | nil => intro x; exact Or.inl rfl
  | cons y ys ih =>
    intro x
    rcases ih (min x y) with h | h
    · rcases min_choice x y with hm | hm
      · exact Or.inl (by rw [List.foldl_cons, h, hm])
      · exact Or.inr (by rw [List.foldl_cons, h, hm]; exact List.mem_cons_self y ys)
    · exact Or.inr (List.mem_cons_of_mem y h)

theorem listMin_le_mem {l : List Int} {v : Int} (h : v ∈ l) : listMin l ≤ v := by
  cases l with
  | nil => simp at h
  | cons x xs =>
    rcases List.mem_cons.mp h with rfl | h
    · exact ge_foldl_min xs v
    · exact foldl_min_le_mem xs x v h

theorem listMin_mem {l : List Int} (h : l ≠ []) : listMin l ∈ l := by
  cases l with
  | nil => exact absurd rfl h
  | cons x xs =>
    rcases foldl_min_mem xs x with hm | hm
    · rw [listMin, hm]; exact List.mem_cons_self x xs
    · exact List.mem_cons_of_mem x hm

theorem optimalValue_range : ∀ (fuel : Nat) (isMax : Bool) (s : State) (p : Player),
    -1 ≤ optimalValue fuel isMax s p ∧ optimalValue fuel isMax s p ≤ 1 := by
  intro fuel
  induction fuel with
  | zero => intro isMax s p; simp [optimalValue]
  | succ f ih =>
    intro isMax s p
    cases hst : Game.status s with
    | Finished w => rw [optimalValue_finished hst]; exact utility_range w p
    | OnGoing =>
      have hne := ongoing_nonempty hst
      cases isMax with
      | true =>
        rw [optimalValue_ongoing_true hst]
        have hmem := listMax_mem
          (l := s.available_fields.map (fun a => optimalValue f false (s.act p a).2 p))
          (by simpa using hne)
        obtain ⟨a, ha, heq⟩ := List.mem_map.mp hmem
        rw [← heq]
        exact ih false (s.act p a).2 p
      | false =>
        rw [optimalValue_ongoing_false hst]
        have hmem := listMin_mem
          (l := s.available_fields.map (fun a => optimalValue f true (s.act p.next a).2 p))
          (by simpa using hne)
        obtain ⟨a, ha, heq⟩ := List.mem_map.mp hmem
        rw [← heq]
        exact ih true (s.act p.next a).2 p



/-- Invariant of the maximize move loop: the final value dominates the values
of all processed moves and the incoming best value, and the final best move
(when one exists) is a legal move achieving the final value.  Holds for both
the early-exiting (`us = true`, `stop = 1`) and the exhaustive (`us = false`)
variant: an early exit can only fire at the maximal possible value `1`, which
already dominates every remaining move. -/
theorem loopMax_inv {σ : Type} (eval : σ → State → Int × σ) (us : Bool) (stop : Int)
    (hstop : us = true → stop = 1) (s : State) (mv : Player) (f : Nat → Int)
    (avs : List Nat) :
    ∀ (l : List Nat) (acc : σ) (hv : Int) (bm : Option Nat),
      (∀ (acc' : σ) (a : Nat), a ∈ l → (eval acc' (s.act mv a).2).1 = f a) →
      (∀ a ∈ l, -1 ≤ f a ∧ f a ≤ 1) →
      (∀ a ∈ l, a ∈ avs) →
      ((hv = -10 ∧ bm = none) ∨
        (∃ b, bm = some b ∧ b ∈ avs ∧ f b = hv ∧ -1 ≤ hv ∧ hv ≤ 1)) →
      (∀ a ∈ l, f a ≤
        (searchLoop eval (fun v h => decide (h < v)) us stop s mv l acc hv bm).1) ∧
      hv ≤ (searchLoop eval (fun v h => decide (h < v)) us stop s mv l acc hv bm).1 ∧
      (((searchLoop eval (fun v h => decide (h < v)) us stop s mv l acc hv bm).2.1 = bm ∧
        (searchLoop eval (fun v h => decide (h < v)) us stop s mv l acc hv bm).1 = hv) ∨
       (∃ m, (searchLoop eval (fun v h => decide (h < v)) us stop s mv l acc hv bm).2.1 =
          some m ∧ m ∈ avs ∧
          f m = (searchLoop eval (fun v h => decide (h < v)) us stop s mv l acc hv bm).1 ∧
          -1 ≤ (searchLoop eval (fun v h => decide (h < v)) us stop s mv l acc hv bm).1 ∧
          (searchLoop eval (fun v h => decide (h < v)) us stop s mv l acc hv bm).1 ≤ 1)) := by
  intro l
  induction l with
  | nil =>
    intro acc hv bm heval hrange hsub hinv
    exact ⟨by simp, le_refl hv, Or.inl ⟨rfl, rfl⟩⟩
  | cons a rest ih =>
    intro acc hv bm heval hrange hsub hinv
    have hva : (eval acc (s.act mv a).2).1 = f a := heval acc a (List.mem_cons_self a rest)
    obtain ⟨halo, hahi⟩ := hrange a (List.mem_cons_self a rest)
    by_cases hb : hv < (eval acc (s.act mv a).2).1
    · rw [searchLoop_cons_true (by simpa using hb)]
      split
      next hexit =>
        have hus : us = true := (Bool.and_eq_true _ _).mp hexit |>.1
        have hstop1 : (eval acc (s.act mv a).2).1 = stop := by
          have := (Bool.and_eq_true _ _).mp hexit |>.2
          exact beq_iff_eq.mp this
        have hone : (eval acc (s.act mv a).2).1 = 1 := by rw [hstop1, hstop hus]
        refine ⟨?_, ?_, Or.inr ⟨a, rfl, hsub a (List.mem_cons_self a rest), ?_, ?_, ?_⟩⟩
        · intro x hx
          rw [hone]
          exact (hrange x hx).2
        · rw [hone]; omega
        · rw [hva]
        · rw [hone]; omega
        · rw [hone]
      next hexit =>
        have hinv' : ((eval acc (s.act mv a).2).1 = -10 ∧ (some a : Option Nat) = none) ∨
            (∃ b, (some a : Option Nat) = some b ∧ b ∈ avs ∧
              f b = (eval acc (s.act mv a).2).1 ∧
              -1 ≤ (eval acc (s.act mv a).2).1 ∧ (eval acc (s.act mv a).2).1 ≤ 1) :=
          Or.inr ⟨a, rfl, hsub a (List.mem_cons_self a rest), hva.symm,
            by rw [hva]; exact halo, by rw [hva]; exact hahi⟩
        obtain ⟨ih1, ih2, ih3⟩ := ih (eval acc (s.act mv a).2).2 (eval acc (s.act mv a).2).1
          (some a)
          (fun acc' x hx => heval acc' x (List.mem_cons_of_mem a hx))
          (fun x hx => hrange x (List.mem_cons_of_mem a hx))
          (fun x hx => hsub x (List.mem_cons_of_mem a hx))
          hinv'
        refine ⟨?_, ?_, ?_⟩
        · intro x hx
          rcases List.mem_cons.mp hx with rfl | hx
          · rw [← hva]; exact ih2
          · exact ih1 x hx
        · exact le_trans (le_of_lt hb) ih2
        · rcases ih3 with ⟨hbm, hhv⟩ | h
          · exact Or.inr ⟨a, hbm, hsub a (List.mem_cons_self a rest),
              by rw [hhv, ← hva], by rw [hhv, hva]; exact halo, by rw [hhv, hva]; exact hahi⟩
          · exact Or.inr h
    · rw [searchLoop_cons_false (by simpa using hb)]
      have hvrange : -1 ≤ hv ∧ hv ≤ 1 := by
        rcases hinv with ⟨h10, _⟩ | ⟨b, _, _, _, hlow, hhigh⟩
        · rw [h10] at hb; rw [hva] at hb; omega
        · exact ⟨hlow, hhigh⟩
      split
      next hexit =>
        have hus : us = true := (Bool.and_eq_true _ _).mp hexit |>.1
        have hone : hv = 1 := by
          have := beq_iff_eq.mp ((Bool.and_eq_true _ _).mp hexit |>.2)
          rw [this, hstop hus]
        refine ⟨?_, le_refl hv, Or.inl ⟨rfl, rfl⟩⟩
        intro x hx
        rw [hone]
        exact (hrange x hx).2
      next hexit =>
        obtain ⟨ih1, ih2, ih3⟩ := ih (eval acc (s.act mv a).2).2 hv bm
          (fun acc' x hx => heval acc' x (List.mem_cons_of_mem a hx))
          (fun x hx => hrange x (List.mem_cons_of_mem a hx))
          (fun x hx => hsub x (List.mem_cons_of_mem a hx))
          hinv
        refine ⟨?_, ih2, ih3⟩
        intro x hx
        rcases List.mem_cons.mp hx with rfl | hx
        · rw [← hva]
          exact le_trans (not_lt.mp hb) ih2
        · exact ih1 x hx

/-- Invariant of the minimize move loop, the mirror image of `loopMax_inv`. -/
theorem loopMin_inv {σ : Type} (eval : σ → State → Int × σ) (us : Bool) (stop : Int)
    (hstop : us = true → stop = -1) (s : State) (mv : Player) (f : Nat → Int)
    (avs : List Nat) :
    ∀ (l : List Nat) (acc : σ) (hv : Int) (bm : Option Nat),
      (∀ (acc' : σ) (a : Nat), a ∈ l → (eval acc' (s.act mv a).2).1 = f a) →
      (∀ a ∈ l, -1 ≤ f a ∧ f a ≤ 1) →
      (∀ a ∈ l, a ∈ avs) →
      ((hv = 10 ∧ bm = none) ∨
        (∃ b, bm = some b ∧ b ∈ avs ∧ f b = hv ∧ -1 ≤ hv ∧ hv ≤ 1)) →
      (∀ a ∈ l,
        (searchLoop eval (fun v h => decide (v < h)) us stop s mv l acc hv bm).1 ≤ f a) ∧
      (searchLoop eval (fun v h => decide (v < h)) us stop s mv l acc hv bm).1 ≤ hv ∧
      (((searchLoop eval (fun v h => decide (v < h)) us stop s mv l acc hv bm).2.1 = bm ∧
        (searchLoop eval (fun v h => decide (v < h)) us stop s mv l acc hv bm).1 = hv) ∨
       (∃ m, (searchLoop eval (fun v h => decide (v < h)) us stop s mv l acc hv bm).2.1 =
          some m ∧ m ∈ avs ∧
          f m = (searchLoop eval (fun v h => decide (v < h)) us stop s mv l acc hv bm).1 ∧
          -1 ≤ (searchLoop eval (fun v h => decide (v < h)) us stop s mv l acc hv bm).1 ∧
          (searchLoop eval (fun v h => decide (v < h)) us stop s mv l acc hv bm).1 ≤ 1)) := by
  intro l
  induction l with
  | nil =>
    intro acc hv bm heval hrange hsub hinv
    exact ⟨by simp, le_refl hv, Or.inl ⟨rfl, rfl⟩⟩
  | cons a rest ih =>
    intro acc hv bm heval hrange hsub hinv
    have hva : (eval acc (s.act mv a).2).1 = f a := heval acc a (List.mem_cons_self a rest)
    obtain ⟨halo, hahi⟩ := hrange a (List.mem_cons_self a rest)
    by_cases hb : (eval acc (s.act mv a).2).1 < hv
    · rw [searchLoop_cons_true (by simpa using hb)]
      split
      next hexit =>
        have hus : us = true := (Bool.and_eq_true _ _).mp hexit |>.1
        have hstop1 : (eval acc (s.act mv a).2).1 = stop := by
          have := (Bool.and_eq_true _ _).mp hexit |>.2
          exact beq_iff_eq.mp this
        have hone : (eval acc (s.act mv a).2).1 = -1 := by rw [hstop1, hstop hus]
        refine ⟨?_, ?_, Or.inr ⟨a, rfl, hsub a (List.mem_cons_self a rest), ?_, ?_, ?_⟩⟩
        · intro x hx
          rw [hone]
          exact (hrange x hx).1
        · rw [hone]; omega
        · rw [hva]
        · rw [hone]
        · rw [hone]; omega
      next hexit =>
        have hinv' : ((eval acc (s.act mv a).2).1 = 10 ∧ (some a : Option Nat) = none) ∨
            (∃ b, (some a : Option Nat) = some b ∧ b ∈ avs ∧
              f b = (eval acc (s.act mv a).2).1 ∧
              -1 ≤ (eval acc (s.act mv a).2).1 ∧ (eval acc (s.act mv a).2).1 ≤ 1) :=
          Or.inr ⟨a, rfl, hsub a (List.mem_cons_self a rest), hva.symm,
            by rw [hva]; exact halo, by rw [hva]; exact hahi⟩
        obtain ⟨ih1, ih2, ih3⟩ := ih (eval acc (s.act mv a).2).2 (eval acc (s.act mv a).2).1
          (some a)
          (fun acc' x hx => heval acc' x (List.mem_cons_of_mem a hx))
          (fun x hx => hrange x (List.mem_cons_of_mem a hx))
          (fun x hx => hsub x (List.mem_cons_of_mem a hx))
          hinv'
        refine ⟨?_, ?_, ?_⟩
        · intro x hx
          rcases List.mem_cons.mp hx with rfl | hx
          · rw [← hva]; exact ih2
          · exact ih1 x hx
        · exact le_trans ih2 (le_of_lt hb)
        · rcases ih3 with ⟨hbm, hhv⟩ | h
          · exact Or.inr ⟨a, hbm, hsub a (List.mem_cons_self a rest),
              by rw [hhv, ← hva], by rw [hhv, hva]; exact halo, by rw [hhv, hva]; exact hahi⟩
          · exact Or.inr h
    · rw [searchLoop_cons_false (by simpa using hb)]
      have hvrange : -1 ≤ hv ∧ hv ≤ 1 := by
        rcases hinv with ⟨h10, _⟩ | ⟨b, _, _, _, hlow, hhigh⟩
        · rw [h10] at hb; rw [hva] at hb; omega
        · exact ⟨hlow, hhigh⟩
      split
      next hexit =>
        have hus : us = true := (Bool.and_eq_true _ _).mp hexit |>.1
        have hone : hv = -1 := by
          have := beq_iff_eq.mp ((Bool.and_eq_true _ _).mp hexit |>.2)
          rw [this, hstop hus]
        refine ⟨?_, le_refl hv, Or.inl ⟨rfl, rfl⟩⟩
        intro x hx
        rw [hone]
        exact (hrange x hx).1
      next hexit =>
        obtain ⟨ih1, ih2, ih3⟩ := ih (eval acc (s.act mv a).2).2 hv bm
          (fun acc' x hx => heval acc' x (List.mem_cons_of_mem a hx))
          (fun x hx => hrange x (List.mem_cons_of_mem a hx))
          (fun x hx => hsub x (List.mem_cons_of_mem a hx))
          hinv
        refine ⟨?_, ih2, ih3⟩
        intro x hx
        rcases List.mem_cons.mp hx with rfl | hx
        · rw [← hva]
          exact le_trans ih2 (not_lt.mp hb)
        · exact ih1 x hx



/-- A maximize move loop started from the `-10`/`None` sentinels on a
nonempty move list computes the maximum of the move values and returns a
move achieving it. -/
theorem loopMax_summary {σ : Type} (eval : σ → State → Int × σ) (us : Bool) (stop : Int)
    (hstop : us = true → stop = 1) (s : State) (mv : Player) (f : Nat → Int)
    (l : List Nat) (hne : l ≠ [])
    (heval : ∀ (acc' : σ) (a : Nat), a ∈ l → (eval acc' (s.act mv a).2).1 = f a)
    (hrange : ∀ a ∈ l, -1 ≤ f a ∧ f a ≤ 1) (acc : σ) :
    (searchLoop eval (fun v h => decide (h < v)) us stop s mv l acc (-10) none).1 =
      listMax (l.map f) ∧
    ∃ m, (searchLoop eval (fun v h => decide (h < v)) us stop s mv l acc (-10) none).2.1 =
      some m ∧ m ∈ l ∧
      f m = (searchLoop eval (fun v h => decide (h < v)) us stop s mv l acc (-10) none).1 := by
  obtain ⟨P1, P2, P3⟩ := loopMax_inv eval us stop hstop s mv f l l acc (-10) none
    heval hrange (fun a ha => ha) (Or.inl ⟨rfl, rfl⟩)
  have hex : ∃ m, (searchLoop eval (fun v h => decide (h < v)) us stop s mv l acc
      (-10) none).2.1 = some m ∧ m ∈ l ∧
      f m = (searchLoop eval (fun v h => decide (h < v)) us stop s mv l acc (-10) none).1 := by
    rcases P3 with ⟨hbm, hhv⟩ | ⟨m, hm, hmem, hfm, _, _⟩
    · obtain ⟨a0, rest0, rfl⟩ := List.exists_cons_of_ne_nil hne
      have h1 := P1 a0 (List.mem_cons_self a0 rest0)
      have h2 := (hrange a0 (List.mem_cons_self a0 rest0)).1
      rw [hhv] at h1
      omega
    · exact ⟨m, hm, hmem, hfm⟩
  obtain ⟨m, hm, hmem, hfm⟩ := hex
  refine ⟨le_antisymm ?_ ?_, m, hm, hmem, hfm⟩
  · rw [← hfm]
    exact mem_le_listMax (List.mem_map_of_mem f hmem)
  · obtain ⟨x, hx, hxeq⟩ := List.mem_map.mp (listMax_mem (l := l.map f) (by simpa using hne))
    rw [← hxeq]
    exact P1 x hx

/-- A minimize move loop started from the `10`/`None` sentinels on a nonempty
move list computes the minimum of the move values and returns a move
achieving it. -/
theorem loopMin_summary {σ : Type} (eval : σ → State → Int × σ) (us : Bool) (stop : Int)
    (hstop : us = true → stop = -1) (s : State) (mv : Player) (f : Nat → Int)
    (l : List Nat) (hne : l ≠ [])
    (heval : ∀ (acc' : σ) (a : Nat), a ∈ l → (eval acc' (s.act mv a).2).1 = f a)
    (hrange : ∀ a ∈ l, -1 ≤ f a ∧ f a ≤ 1) (acc : σ) :
    (searchLoop eval (fun v h => decide (v < h)) us stop s mv l acc 10 none).1 =
      listMin (l.map f) ∧
    ∃ m, (searchLoop eval (fun v h => decide (v < h)) us stop s mv l acc 10 none).2.1 =
      some m ∧ m ∈ l ∧
      f m = (searchLoop eval (fun v h => decide (v < h)) us stop s mv l acc 10 none).1 := by
  obtain ⟨P1, P2, P3⟩ := loopMin_inv eval us stop hstop s mv f l l acc 10 none
    heval hrange (fun a ha => ha) (Or.inl ⟨rfl, rfl⟩)
  have hex : ∃ m, (searchLoop eval (fun v h => decide (v < h)) us stop s mv l acc
      10 none).2.1 = some m ∧ m ∈ l ∧
      f m = (searchLoop eval (fun v h => decide (v < h)) us stop s mv l acc 10 none).1 := by
    rcases P3 with ⟨hbm, hhv⟩ | ⟨m, hm, hmem, hfm, _, _⟩
    · obtain ⟨a0, rest0, rfl⟩ := List.exists_cons_of_ne_nil hne
      have h1 := P1 a0 (List.mem_cons_self a0 rest0)
      have h2 := (hrange a0 (List.mem_cons_self a0 rest0)).2
      rw [hhv] at h1
      omega
    · exact ⟨m, hm, hmem, hfm⟩
  obtain ⟨m, hm, hmem, hfm⟩ := hex
  refine ⟨le_antisymm ?_ ?_, m, hm, hmem, hfm⟩
  · obtain ⟨x, hx, hxeq⟩ := List.mem_map.mp (listMin_mem (l := l.map f) (by simpa using hne))
    rw [← hxeq]
    exact P1 x hx
  · rw [← hfm]
    exact listMin_le_mem (List.mem_map_of_mem f hmem)

/-- Both search variants compute exactly the optimal-play value on
well-formed states (given fuel at least the number of remaining moves), and
on ongoing states the returned move is a legal move whose child value equals
that optimal value.  Proved for maximize and minimize steps simultaneously
by induction on the fuel. -/
theorem minimax_matches_optimal :
    ∀ (fuel : Nat) (isMax : Bool) (s : State) (p : Player),
      WfState s → s.available_fields.length ≤ fuel →
      (∀ kn, (minimaxL (fuel + 1) isMax kn s p).1 = optimalValue (fuel + 1) isMax s p) ∧
      ((minimaxOS (fuel + 1) isMax s p).1 = optimalValue (fuel + 1) isMax s p) ∧
      (Game.status s = Status.OnGoing →
        (∃ m, (minimaxOS (fuel + 1) isMax s p).2 = some m ∧ m ∈ s.available_fields ∧
          optimalValue fuel (!isMax) ((s.act (if isMax then p else p.next) m).2) p =
            optimalValue (fuel + 1) isMax s p) ∧
        (∀ kn, ∃ m, (minimaxL (fuel + 1) isMax kn s p).2.1 = some m ∧
          m ∈ s.available_fields ∧
          optimalValue fuel (!isMax) ((s.act (if isMax then p else p.next) m).2) p =
            optimalValue (fuel + 1) isMax s p)) := by
  intro fuel
  induction fuel with
  | zero =>
    intro isMax s p hwf hlen
    have havail : s.available_fields = [] := List.eq_nil_of_length_eq_zero (by omega)
    obtain ⟨w, hst⟩ := empty_avail_finished havail
    refine ⟨fun kn => ?_, ?_, fun hog => ?_⟩
    · rw [minimaxL_finished hst, optimalValue_finished hst]
    · rw [minimaxOS_finished hst, optimalValue_finished hst]
    · rw [hst] at hog
      exact absurd hog (by simp)
  | succ f ih =>
    intro isMax s p hwf hlen
    cases hst : Game.status s with
    | Finished w =>
      refine ⟨fun kn => ?_, ?_, fun hog => ?_⟩
      · rw [minimaxL_finished hst, optimalValue_finished hst]
      · rw [minimaxOS_finished hst, optimalValue_finished hst]
      · exact absurd hog (by simp)
    | OnGoing =>
      have hne := ongoing_nonempty hst
      have hchild : ∀ q : Player, ∀ a ∈ s.available_fields,
          WfState ((s.act q a).2) ∧ ((s.act q a).2).available_fields.length ≤ f := by
        intro q a ha
        obtain ⟨_, hwf', hlen', _, _⟩ := wf_act hwf (wf_act_ok hwf ha q)
        exact ⟨hwf', by omega⟩
      cases isMax with
      | true =>
        have heL : ∀ (acc' : Kn) (a : Nat), a ∈ s.available_fields →
            ((fun kn' s' => let m := minimaxL (f + 1) false kn' s' p; (m.1, m.2.2)) acc'
              ((s.act p a).2)).1 = optimalValue (f + 1) false ((s.act p a).2) p := by
          intro acc' a ha
          exact (ih false ((s.act p a).2) p (hchild p a ha).1 (hchild p a ha).2).1 acc'
        have heO : ∀ (acc' : Unit) (a : Nat), a ∈ s.available_fields →
            ((fun _ s' => ((minimaxOS (f + 1) false s' p).1, ())) acc'
              ((s.act p a).2)).1 = optimalValue (f + 1) false ((s.act p a).2) p := by
          intro acc' a ha
          exact (ih false ((s.act p a).2) p (hchild p a ha).1 (hchild p a ha).2).2.1
        have hr : ∀ a ∈ s.available_fields,
            -1 ≤ optimalValue (f + 1) false ((s.act p a).2) p ∧
            optimalValue (f + 1) false ((s.act p a).2) p ≤ 1 :=
          fun a _ => optimalValue_range (f + 1) false ((s.act p a).2) p
        have hsumL := fun kn => loopMax_summary
          (fun kn' s' => let m := minimaxL (f + 1) false kn' s' p; (m.1, m.2.2))
          false 0 (fun h => absurd h (by simp)) s p
          (fun a => optimalValue (f + 1) false ((s.act p a).2) p)
          s.available_fields hne heL hr kn
        have hsumO := loopMax_summary
          (fun _ s' => ((minimaxOS (f + 1) false s' p).1, ()))
          true 1 (fun _ => rfl) s p
          (fun a => optimalValue (f + 1) false ((s.act p a).2) p)
          s.available_fields hne heO hr ()
        refine ⟨fun kn => ?_, ?_, fun _ => ⟨?_, fun kn => ?_⟩⟩
        · rw [minimaxL_ongoing_true hst, optimalValue_ongoing_true hst]
          exact (hsumL kn).1
        · rw [minimaxOS_ongoing_true hst, optimalValue_ongoing_true hst]
          exact hsumO.1
        · obtain ⟨m, hm, hmem, hfm⟩ := hsumO.2
          refine ⟨m, ?_, hmem, ?_⟩
          · rw [minimaxOS_ongoing_true hst]
            exact hm
          · show optimalValue (f + 1) false ((s.act p m).2) p =
              optimalValue (f + 1 + 1) true s p
            rw [hfm, hsumO.1, optimalValue_ongoing_true hst]
        · obtain ⟨m, hm, hmem, hfm⟩ := (hsumL kn).2
          refine ⟨m, ?_, hmem, ?_⟩
          · rw [minimaxL_ongoing_true hst]
            exact hm
          · show optimalValue (f + 1) false ((s.act p m).2) p =
              optimalValue (f + 1 + 1) true s p
            rw [hfm, (hsumL kn).1, optimalValue_ongoing_true hst]
      | false =>
        have heL : ∀ (acc' : Kn) (a : Nat), a ∈ s.available_fields →
            ((fun kn' s' => let m := minimaxL (f + 1) true kn' s' p; (m.1, m.2.2)) acc'
              ((s.act p.next a).2)).1 = optimalValue (f + 1) true ((s.act p.next a).2) p := by
          intro acc' a ha
          exact (ih true ((s.act p.next a).2) p (hchild p.next a ha).1 (hchild p.next a ha).2).1 acc'
        have heO : ∀ (acc' : Unit) (a : Nat), a ∈ s.available_fields →
            ((fun _ s' => ((minimaxOS (f + 1) true s' p).1, ())) acc'
              ((s.act p.next a).2)).1 = optimalValue (f + 1) true ((s.act p.next a).2) p := by
          intro acc' a ha
          exact (ih true ((s.act p.next a).2) p (hchild p.next a ha).1 (hchild p.next a ha).2).2.1
        have hr : ∀ a ∈ s.available_fields,
            -1 ≤ optimalValue (f + 1) true ((s.act p.next a).2) p ∧
            optimalValue (f + 1) true ((s.act p.next a).2) p ≤ 1 :=
          fun a _ => optimalValue_range (f + 1) true ((s.act p.next a).2) p
        have hsumL := fun kn => loopMin_summary
          (fun kn' s' => let m := minimaxL (f + 1) true kn' s' p; (m.1, m.2.2))
          false 0 (fun h => absurd h (by simp)) s p.next
          (fun a => optimalValue (f + 1) true ((s.act p.next a).2) p)
          s.available_fields hne heL hr kn
        have hsumO := loopMin_summary
          (fun _ s' => ((minimaxOS (f + 1) true s' p).1, ()))
          true (-1) (fun _ => rfl) s p.next
          (fun a => optimalValue (f + 1) true ((s.act p.next a).2) p)
          s.available_fields hne heO hr ()
        refine ⟨fun kn => ?_, ?_, fun _ => ⟨?_, fun kn => ?_⟩⟩
        · rw [minimaxL_ongoing_false hst, optimalValue_ongoing_false hst]
          exact (hsumL kn).1
        · rw [minimaxOS_ongoing_false hst, optimalValue_ongoing_false hst]
          exact hsumO.1
        · obtain ⟨m, hm, hmem, hfm⟩ := hsumO.2
          refine ⟨m, ?_, hmem, ?_⟩
          · rw [minimaxOS_ongoing_false hst]
            exact hm
          · show optimalValue (f + 1) true ((s.act p.next m).2) p =
              optimalValue (f + 1 + 1) false s p
            rw [hfm, hsumO.1, optimalValue_ongoing_false hst]
        · obtain ⟨m, hm, hmem, hfm⟩ := (hsumL kn).2
          refine ⟨m, ?_, hmem, ?_⟩
          · rw [minimaxL_ongoing_false hst]
            exact hm
          · show optimalValue (f + 1) true ((s.act p.next m).2) p =
              optimalValue (f + 1 + 1) false s p
            rw [hfm, (hsumL kn).1, optimalValue_ongoing_false hst]


/-- C1: from any well-formed ongoing state, for any designated self player
and in both search variants (one-shot `player.rs` and learning
`players/minmax.rs`, for any knowledge table), the move returned by maximize
is a legal move and no alternative legal move has a strictly greater
minimax value under subsequent optimal play down to true terminal leaves
scored +1 / -1 / 0. -/
theorem maximize_selects_optimal_move (fuel : Nat) (s : State) (p : Player)
    (hwf : WfState s) (hlen : s.available_fields.length ≤ fuel)
    (hog : Game.status s = Status.OnGoing) :
    (∃ m, (OneShot.maximize (fuel + 1) s p).2 = some m ∧ m ∈ s.available_fields ∧
      ∀ a ∈ s.available_fields,
        optimalValue fuel false ((s.act p a).2) p ≤
          optimalValue fuel false ((s.act p m).2) p) ∧
    (∀ kn, ∃ m, (Learning.maximize (fuel + 1) kn s p).2.1 = some m ∧
      m ∈ s.available_fields ∧
      ∀ a ∈ s.available_fields,
        optimalValue fuel false ((s.act p a).2) p ≤
          optimalValue fuel false ((s.act p m).2) p) := by
  obtain ⟨hLv, hOv, hmove⟩ := minimax_matches_optimal fuel true s p hwf hlen
  obtain ⟨⟨m, hm, hmem, hfm⟩, hLmove⟩ := hmove hog
  have hfm' : optimalValue fuel false ((s.act p m).2) p = optimalValue (fuel + 1) true s p :=
    hfm
  constructor
  · refine ⟨m, hm, hmem, fun a ha => ?_⟩
    rw [hfm', optimalValue_ongoing_true hog]
    exact mem_le_listMax (List.mem_map_of_mem _ ha)
  · intro kn
    obtain ⟨m', hm', hmem', hfm2⟩ := hLmove kn
    have hfm2' : optimalValue fuel false ((s.act p m').2) p =
        optimalValue (fuel + 1) true s p := hfm2
    refine ⟨m', hm', hmem', fun a ha => ?_⟩
    rw [hfm2', optimalValue_ongoing_true hog]
    exact mem_le_listMax (List.mem_map_of_mem _ ha)

/-- Concrete instantiation of C1 at a well-formed ongoing board with three
empty cells. -/
theorem maximize_selects_optimal_move_witness :
    (∃ m, (OneShot.maximize 4 smallOngoing Player.X).2 = some m ∧
      m ∈ smallOngoing.available_fields ∧
      ∀ a ∈ smallOngoing.available_fields,
        optimalValue 3 false ((smallOngoing.act Player.X a).2) Player.X ≤
          optimalValue 3 false ((smallOngoing.act Player.X m).2) Player.X) ∧
    (∀ kn, ∃ m, (Learning.maximize 4 kn smallOngoing Player.X).2.1 = some m ∧
      m ∈ smallOngoing.available_fields ∧
      ∀ a ∈ smallOngoing.available_fields,
        optimalValue 3 false ((smallOngoing.act Player.X a).2) Player.X ≤
          optimalValue 3 false ((smallOngoing.act Player.X m).2) Player.X) :=
  maximize_selects_optimal_move 3 smallOngoing Player.X (by decide) (by decide) (by decide)



theorem knFind_insert_self (kn : Kn) (k : List Cell) (v : Nat) :
    knFind (knInsert kn k v) k = some v := by
  simp [knInsert, knFind]

theorem knFind_insert_isSome {kn : Kn} {key : List Cell} (k : List Cell) (v : Nat)
    (h : (knFind kn key).isSome) : (knFind (knInsert kn k v) key).isSome := by
  unfold knInsert knFind
  by_cases hk : k = key
  · simp [hk]
  · simp [hk, h]

/-- Knowledge keys accumulated by the loop's accumulator are preserved:
any predicate on the accumulator stable under `eval` is stable under the
whole loop. -/
theorem searchLoop_keep {σ : Type} (eval : σ → State → Int × σ)
    (better : Int → Int → Bool) (us : Bool) (stop : Int) (s : State) (mv : Player)
    (keep : σ → Prop) (hm : ∀ acc s', keep acc → keep (eval acc s').2) :
    ∀ (l : List Nat) (acc : σ) (hv : Int) (bm : Option Nat), keep acc →
      keep (searchLoop eval better us stop s mv l acc hv bm).2.2 := by
  intro l
  induction l with
  | nil => intro acc hv bm h; exact h
  | cons a rest ih =>
    intro acc hv bm h
    cases hb : better (eval acc (s.act mv a).2).1 hv with
    | false =>
      rw [searchLoop_cons_false hb]
      split
      · exact hm acc _ h
      · exact ih _ _ _ (hm acc _ h)
    | true =>
      rw [searchLoop_cons_true hb]
      split
      · exact hm acc _ h
      · exact ih _ _ _ (hm acc _ h)

/-- In the exhaustive loop (no early exit) every listed move is evaluated:
whatever the evaluation of move `x` establishes about the accumulator is
established by the whole loop, provided it is stable under later
evaluations. -/
theorem searchLoop_keep_elem {σ : Type} (eval : σ → State → Int × σ)
    (better : Int → Int → Bool) (stop : Int) (s : State) (mv : Player)
    (keep : σ → Prop) (hm : ∀ acc s', keep acc → keep (eval acc s').2) (x : Nat)
    (hx : ∀ acc', keep ((eval acc' (s.act mv x).2).2)) :
    ∀ (l : List Nat) (acc : σ) (hv : Int) (bm : Option Nat), x ∈ l →
      keep (searchLoop eval better false stop s mv l acc hv bm).2.2 := by
  intro l
  induction l with
  | nil => intro acc hv bm h; simp at h
  | cons a rest ih =>
    intro acc hv bm h
    rcases List.mem_cons.mp h with rfl | h
    · cases hb : better (eval acc (s.act mv x).2).1 hv with
      | false =>
        rw [searchLoop_cons_false hb]
        rw [if_neg (by simp)]
        exact searchLoop_keep eval better false stop s mv keep hm _ _ _ _ (hx acc)
      | true =>
        rw [searchLoop_cons_true hb]
        rw [if_neg (by simp)]
        exact searchLoop_keep eval better false stop s mv keep hm _ _ _ _ (hx acc)
    · cases hb : better (eval acc (s.act mv a).2).1 hv with
      | false =>
        rw [searchLoop_cons_false hb]
        rw [if_neg (by simp)]
        exact ih _ _ _ h
      | true =>
        rw [searchLoop_cons_true hb]
        rw [if_neg (by simp)]
        exact ih _ _ _ h

/-- A key present in the knowledge table stays present through any learning
search call. -/
theorem minimaxL_keep :
    ∀ (fuel : Nat) (isMax : Bool) (kn : Kn) (s : State) (p : Player) (key : List Cell),
      (knFind kn key).isSome → (knFind ((minimaxL fuel isMax kn s p).2.2) key).isSome := by
  intro fuel
  induction fuel with
  | zero => intro isMax kn s p key h; exact h
  | succ f ih =>
    intro isMax kn s p key h
    cases hst : Game.status s with
    | Finished w =>
      rw [minimaxL_finished hst]
      exact h
    | OnGoing =>
      cases isMax with
      | true =>
        rw [minimaxL_ongoing_true hst]
        refine knFind_insert_isSome _ _ ?_
        exact searchLoop_keep _ _ false 0 s p
          (fun kn' => (knFind kn' key).isSome = true)
          (fun acc s' hacc => ih false acc s' p key hacc) _ _ _ _ h
      | false =>
        rw [minimaxL_ongoing_false hst]
        refine knFind_insert_isSome _ _ ?_
        exact searchLoop_keep _ _ false 0 s p.next
          (fun kn' => (knFind kn' key).isSome = true)
          (fun acc s' hacc => ih true acc s' p key hacc) _ _ _ _ h

/-- Every ongoing state reachable by legal alternating play from the state a
learning search is started on ends up as a key of the resulting knowledge
table. -/
theorem minimaxL_covers :
    ∀ (fuel : Nat) (isMax : Bool) (s : State) (p : Player) (t : State) (r : Player)
      (kn : Kn), WfState s → s.available_fields.length ≤ fuel →
      ReachFrom s (if isMax then p else p.next) t r →
      Game.status t = Status.OnGoing →
      (knFind ((minimaxL (fuel + 1) isMax kn s p).2.2) t.fields).isSome := by
  intro fuel
  induction fuel with
  | zero =>
    intro isMax s p t r kn hwf hlen hreach hogt
    have havail : s.available_fields = [] := List.eq_nil_of_length_eq_zero (by omega)
    obtain ⟨w, hstF⟩ := empty_avail_finished havail
    cases hreach with
    | refl =>
      rw [hstF] at hogt
      exact absurd hogt (by simp)
    | head a hog ha hrest =>
      rw [hstF] at hog
      exact absurd hog (by simp)
  | succ f ih =>
    intro isMax s p t r kn hwf hlen hreach hogt
    cases isMax with
    | true =>
      cases hreach with
      | refl =>
        rw [minimaxL_ongoing_true hogt]
        rw [knFind_insert_self]
        simp
      | head a hog ha hrest =>
        rw [minimaxL_ongoing_true hog]
        refine knFind_insert_isSome _ _ ?_
        obtain ⟨_, hwf', hlen', _, _⟩ := wf_act hwf (wf_act_ok hwf ha p)
        refine searchLoop_keep_elem _ _ 0 s p
          (fun kn' => (knFind kn' t.fields).isSome = true)
          (fun acc s' hacc => minimaxL_keep (f + 1) false acc s' p t.fields hacc) a
          (fun acc' => ?_) s.available_fields kn (-10) none ha
        exact ih false ((s.act p a).2) p t r acc' hwf' (by omega) hrest hogt
    | false =>
      cases hreach with
      | refl =>
        rw [minimaxL_ongoing_false hogt]
        rw [knFind_insert_self]
        simp
      | head a hog ha hrest =>
        rw [minimaxL_ongoing_false hog]
        refine knFind_insert_isSome _ _ ?_
        obtain ⟨_, hwf', hlen', _, _⟩ := wf_act hwf (wf_act_ok hwf ha p.next)
        refine searchLoop_keep_elem _ _ 0 s p.next
          (fun kn' => (knFind kn' t.fields).isSome = true)
          (fun acc s' hacc => minimaxL_keep (f + 1) true acc s' p t.fields hacc) a
          (fun acc' => ?_) s.available_fields kn 10 none ha
        exact ih true ((s.act p.next a).2) p t r acc' hwf' (by omega)
          (by simpa [Player.next_next] using hrest) hogt

/-- C3: after `learn` runs the memoizing search once from the empty initial
state with self = X, the resulting policy table has an entry for every
ongoing state reachable from the empty state by legal alternating play, so a
later table lookup on any such state succeeds. -/
theorem learned_policy_covers (t : State) (r : Player)
    (hreach : ReachFrom State.new Player.X t r)
    (hog : Game.status t = Status.OnGoing) :
    (knFind Learning.learnKnowledge t.fields).isSome :=
  minimaxL_covers 9 true State.new Player.X t r [] (by decide) (by decide) hreach hog

/-- Concrete instantiation of C3: the empty initial state itself is ongoing
and reachable, so its lookup succeeds after learning. -/
theorem learned_policy_covers_witness :
    (knFind Learning.learnKnowledge State.new.fields).isSome :=
  learned_policy_covers State.new Player.X (ReachFrom.refl State.new Player.X) (by decide)



/-- While every move seen so far has value strictly below the maximal `1`,
the early-exiting maximize loop neither stops nor settles; as soon as it
reaches a move of value `1` it returns that move and value immediately,
whatever moves remain behind it. -/
theorem loopMax_first_stop (eval : Unit → State → Int × Unit) (s : State)
    (mv : Player) (a : Nat) (rest : List Nat)
    (ha : (eval () (s.act mv a).2).1 = 1) :
    ∀ (pre : List Nat) (hv : Int) (bm : Option Nat), hv < 1 →
      (∀ x ∈ pre, (eval () (s.act mv x).2).1 < 1) →
      searchLoop eval (fun v h => decide (h < v)) true 1 s mv (pre ++ a :: rest) () hv bm =
        (1, some a, ()) := by
  intro pre
  induction pre with
  | nil =>
    intro hv bm hhv hpre
    rw [List.nil_append]
    rw [searchLoop_cons_true (by simp [ha]; omega)]
    rw [if_pos (by simp [ha])]
    rw [ha]
  | cons x pre' ih =>
    intro hv bm hhv hpre
    have hx : (eval () (s.act mv x).2).1 < 1 := hpre x (List.mem_cons_self x pre')
    rw [List.cons_append]
    by_cases hb : hv < (eval () (s.act mv x).2).1
    · rw [searchLoop_cons_true (by simpa using hb)]
      rw [if_neg (by simp; omega)]
      exact ih _ _ hx (fun y hy => hpre y (List.mem_cons_of_mem x hy))
    · rw [searchLoop_cons_false (by simpa using hb)]
      rw [if_neg (by simp; omega)]
      exact ih _ _ hhv (fun y hy => hpre y (List.mem_cons_of_mem x hy))

/-- Mirror image of `loopMax_first_stop` for the early-exiting minimize
loop and the minimal value `-1`. -/
theorem loopMin_first_stop (eval : Unit → State → Int × Unit) (s : State)
    (mv : Player) (a : Nat) (rest : List Nat)
    (ha : (eval () (s.act mv a).2).1 = -1) :
    ∀ (pre : List Nat) (hv : Int) (bm : Option Nat), -1 < hv →
      (∀ x ∈ pre, -1 < (eval () (s.act mv x).2).1) →
      searchLoop eval (fun v h => decide (v < h)) true (-1) s mv (pre ++ a :: rest) () hv bm =
        (-1, some a, ()) := by
  intro pre
  induction pre with
  | nil =>
    intro hv bm hhv hpre
    rw [List.nil_append]
    rw [searchLoop_cons_true (by simp [ha]; omega)]
    rw [if_pos (by simp [ha])]
    rw [ha]
  | cons x pre' ih =>
    intro hv bm hhv hpre
    have hx : -1 < (eval () (s.act mv x).2).1 := hpre x (List.mem_cons_self x pre')
    rw [List.cons_append]
    by_cases hb : (eval () (s.act mv x).2).1 < hv
    · rw [searchLoop_cons_true (by simpa using hb)]
      rw [if_neg (by simp; omega)]
      exact ih _ _ hx (fun y hy => hpre y (List.mem_cons_of_mem x hy))
    · rw [searchLoop_cons_false (by simpa using hb)]
      rw [if_neg (by simp; omega)]
      exact ih _ _ hhv (fun y hy => hpre y (List.mem_cons_of_mem x hy))

/-- C5 amended: only the one-shot variant (`player.rs`) early-exits, and it
does so as soon as the move of value `+1` (maximize) or `-1` (minimize) is
found, at whatever position of the move list it sits: if every move before
`a` has a sub-optimal value and `a` achieves the extreme value, the loop
returns `a` at once and the moves after `a` are not examined (the result
does not depend on `rest`).  The learning variant (`players/minmax.rs`) has
no early exit and examines every legal move of a well-formed ongoing state:
every legal move with an ongoing child state gets that child recorded in the
knowledge table, even when an earlier move already achieved the extreme
value. -/
theorem oneshot_early_exit (fuel : Nat) (s : State) (p : Player)
    (hog : Game.status s = Status.OnGoing) :
    (∀ (pre : List Nat) (a : Nat) (rest : List Nat),
      s.available_fields = pre ++ a :: rest →
      (∀ x ∈ pre, (minimaxOS fuel false ((s.act p x).2) p).1 < 1) →
      (minimaxOS fuel false ((s.act p a).2) p).1 = 1 →
      minimaxOS (fuel + 1) true s p = (1, some a)) ∧
    (∀ (pre : List Nat) (a : Nat) (rest : List Nat),
      s.available_fields = pre ++ a :: rest →
      (∀ x ∈ pre, -1 < (minimaxOS fuel true ((s.act p.next x).2) p).1) →
      (minimaxOS fuel true ((s.act p.next a).2) p).1 = -1 →
      minimaxOS (fuel + 1) false s p = (-1, some a)) ∧
    (∀ (kn : Kn) (a : Nat), WfState s → s.available_fields.length ≤ fuel →
      a ∈ s.available_fields → Game.status ((s.act p a).2) = Status.OnGoing →
      (knFind ((minimaxL (fuel + 1) true kn s p).2.2) ((s.act p a).2).fields).isSome) ∧
    (∀ (kn : Kn) (a : Nat), WfState s → s.available_fields.length ≤ fuel →
      a ∈ s.available_fields → Game.status ((s.act p.next a).2) = Status.OnGoing →
      (knFind ((minimaxL (fuel + 1) false kn s p).2.2) ((s.act p.next a).2).fields).isSome) := by
  refine ⟨?_, ?_, ?_, ?_⟩
  · intro pre a rest hav hpre hval
    rw [minimaxOS_ongoing_true hog, hav]
    rw [loopMax_first_stop (fun _ s' => ((minimaxOS fuel false s' p).1, ())) s p a rest
      hval pre (-10) none (by norm_num) hpre]
  · intro pre a rest hav hpre hval
    rw [minimaxOS_ongoing_false hog, hav]
    rw [loopMin_first_stop (fun _ s' => ((minimaxOS fuel true s' p).1, ())) s p.next a rest
      hval pre 10 none (by norm_num) hpre]
  · intro kn a hwf hlen ha hchild
    exact minimaxL_covers fuel true s p ((s.act p a).2) p.next kn hwf hlen
      (ReachFrom.head a hog ha (ReachFrom.refl _ _)) hchild
  · intro kn a hwf hlen ha hchild
    exact minimaxL_covers fuel false s p ((s.act p.next a).2) p.next.next kn hwf hlen
      (ReachFrom.head a hog ha (ReachFrom.refl _ _)) hchild

/-- Concrete instantiation of the amended C5: on boards where the winning
(respectively losing) move `2` sits at the second loop position behind the
sub-optimal move `5`, the one-shot maximize (minimize) still returns move
`2` with value `+1` (`-1`) the moment it is reached; and the learning
variant nevertheless records the ongoing child of move `5`. -/
theorem oneshot_early_exit_witness :
    minimaxOS 6 true winInSecond Player.X = (1, some 2) ∧
    minimaxOS 6 false lossInSecond Player.X = (-1, some 2) ∧
    (knFind ((minimaxL 6 true [] winInSecond Player.X).2.2)
      ((winInSecond.act Player.X 5).2).fields).isSome ∧
    (knFind ((minimaxL 6 false [] lossInSecond Player.X).2.2)
      ((lossInSecond.act Player.X.next 5).2).fields).isSome :=
  ⟨(oneshot_early_exit 5 winInSecond Player.X (by decide)).1 [5] 2 [6, 7, 8] rfl
      (by decide) (by decide),
   (oneshot_early_exit 5 lossInSecond Player.X (by decide)).2.1 [5] 2 [6, 7, 8] rfl
      (by decide) (by decide),
   (oneshot_early_exit 5 winInSecond Player.X (by decide)).2.2.1 [] 5
      (by decide) (by decide) (by decide) (by decide),
   (oneshot_early_exit 5 lossInSecond Player.X (by decide)).2.2.2 [] 5
      (by decide) (by decide) (by decide) (by decide)⟩


end Relearn
